import Mathlib

/-!
# Verification of the AgriSensePro Market Report Acquisition & Resolution Engine

Shallow embedding of `backend/app/agmarknet/fetchers/daily_state_report_fetcher.py`
and `backend/app/agmarknet/dashboard/service.py`.

Modelling conventions:
* Strings are lists of Unicode code points (`Str := List Nat`).  String
  literals are injected with `strLit`.
* `unicodedata.normalize("NFKD", ·)` and the combining-mark filter are
  modelled as the identity: every ASCII code point is its own NFKD
  decomposition and no ASCII code point is a combining mark.  Likewise
  `str.lower` and the regex classes `\w`/`\s` are modelled by their ASCII
  behaviour.  All concrete strings appearing in this development are ASCII.
* Python floats are modelled by `ℚ` (exact arithmetic); `round(x, n)` is
  modelled as round-half-to-even on the scaled rational.
* Calendar dates are modelled as integers (day numbers); `timedelta(days=k)`
  is subtraction of `k`.
* The HTTP collaborator and the on-disk cache are modelled as explicit data:
  an oracle `Int → Option Grid` (`none` covers every kind of download
  failure: timeout, HTTP error, non-spreadsheet content type) and an
  association list from dates to grids that downloads insert into.
-/

set_option maxRecDepth 100000

/-! ## Characters and strings -/

/-- A Python string, as its list of Unicode code points.  (A bare `Nat` is
used for a code point: `omega` then applies directly to character
arithmetic.) -/
abbrev Str := List Nat

/-- Inject a Lean string literal as a `Str`. -/
def strLit (s : String) : Str := s.data.map Char.toNat

/-- Python `str.lower` (ASCII): map `A`-`Z` to `a`-`z`, leave everything else. -/
def pyLowerCh (c : Nat) : Nat := if 65 ≤ c ∧ c ≤ 90 then c + 32 else c

/-- Lowercase a whole string. -/
def pyLower (s : Str) : Str := s.map pyLowerCh

/-- Membership in the regex class `\w` (ASCII): letters, digits, underscore. -/
def isWordCh (c : Nat) : Bool :=
  (48 ≤ c && c ≤ 57) || (65 ≤ c && c ≤ 90) || (97 ≤ c && c ≤ 122) || c == 95

/-- Membership in the regex class `\s` (ASCII): space, tab, LF, VT, FF, CR. -/
def isSpaceCh (c : Nat) : Bool :=
  c == 32 || c == 9 || c == 10 || c == 11 || c == 12 || c == 13

/-- Drop trailing whitespace: a character is kept unless it is whitespace
and everything after it is dropped. -/
def stripR : Str → Str
  | [] => []
  | c :: t =>
    let r := stripR t
    if isSpaceCh c = true ∧ r = [] then [] else c :: r

/-- Python `str.strip()`: drop leading and trailing whitespace. -/
def pyStrip (s : Str) : Str := stripR (s.dropWhile isSpaceCh)

/-- Python `re.sub(r"\s+", " ", s)`: collapse every maximal run of whitespace to a
single space.  The flag records whether the previous character was
whitespace (i.e. whether we are inside a run). -/
def collapseWS : Bool → Str → Str
  | _, [] => []
  | inRun, c :: t =>
    if isSpaceCh c then
      if inRun then collapseWS true t else 32 :: collapseWS true t
    else c :: collapseWS false t

/-- The non-breaking space, replaced by an ordinary space in
`normalize_market_name`. -/
def nbspCh : Nat := 160

/-- The zero-width space, removed in `normalize_market_name`. -/
def zwspCh : Nat := 8203

/-- Function `normalize_market_name` from `daily_state_report_fetcher.py`: lowercase,
NFKD-decompose and drop combining marks (identity here, see the header),
replace NBSP by space and delete ZWSP, delete every character that is neither
`\w` nor `\s`, collapse whitespace runs, and strip. -/
def normalize_market_name (s : Str) : Str :=
  pyStrip (collapseWS false
    (((pyLower s).map (fun c => if c = nbspCh then 32 else c)).filter
        (fun c => c ≠ zwspCh) |>.filter (fun c => isWordCh c || isSpaceCh c)))

/-- Function `_normalize_text` from `daily_state_report_fetcher.py`: lowercase and
strip, replace every character that is neither `\w` nor `\s` by a space,
collapse whitespace runs.  Note that unlike `normalize_market_name` it does
not strip again after collapsing. -/
def normalizeText (s : Str) : Str :=
  collapseWS false
    ((pyStrip (pyLower s)).map (fun c => if isWordCh c || isSpaceCh c then c else 32))

/-! ## Approximate matcher (`_is_close_match`, `_commodity_matches`) -/

/-- Python `a.startswith(b)`: list prefix test. -/
def startsList : Str → Str → Bool
  | [], _ => true
  | _ :: _, [] => false
  | a :: t1, b :: t2 => a == b && startsList t1 t2

/-- Python `n in h`: `n` occurs as a contiguous substring of `h`. -/
def containsSeq (n : Str) : Str → Bool
  | [] => startsList n []
  | c :: t => startsList n (c :: t) || containsSeq n t

/-- Length of the common prefix of two strings. -/
def commonRun : Str → Str → Nat
  | a :: t1, b :: t2 => if a = b then commonRun t1 t2 + 1 else 0
  | _, _ => 0

/-- Model of `difflib.SequenceMatcher.find_longest_match` over the whole windows
(no junk: `isjunk=None`, and autojunk never fires below 200 characters):
the longest matching block, scanning start positions in ascending `(i, j)`
order and keeping the first longest, which is `difflib`'s tie-break. -/
def bestBlock (a b : Str) : Nat × Nat × Nat :=
  (List.range a.length).foldl
    (fun best i =>
      (List.range b.length).foldl
        (fun best j =>
          let k := commonRun (a.drop i) (b.drop j)
          if best.2.2 < k then (i, j, k) else best)
        best)
    (0, 0, 0)

/-- Total size of `difflib.SequenceMatcher.get_matching_blocks`: the longest
block plus, recursively, the blocks strictly to its left and right.  The
fuel only bounds the recursion depth: each recursive call strictly decreases
`a.length + b.length`, so `totalMatched`'s initial fuel is never exhausted. -/
def totalMatchedAux : Nat → Str → Str → Nat
  | 0, _, _ => 0
  | fuel + 1, a, b =>
    let t := bestBlock a b
    if t.2.2 = 0 then 0
    else
      totalMatchedAux fuel (a.take t.1) (b.take t.2.1) + t.2.2 +
        totalMatchedAux fuel (a.drop (t.1 + t.2.2)) (b.drop (t.2.1 + t.2.2))

/-- The `M` of `difflib`'s ratio `2*M/T`. -/
def totalMatched (a b : Str) : Nat :=
  totalMatchedAux (a.length + b.length + 1) a b

/-- Test `SequenceMatcher(None, a, b).ratio() >= num/den`, in exact arithmetic:
`2*M/T ≥ num/den  ↔  2*M*den ≥ num*T` (for `T = 0` difflib defines the
ratio as `1.0`, and both sides hold). -/
def seqRatioGE (a b : Str) (num den : Nat) : Bool :=
  num * (a.length + b.length) ≤ 2 * totalMatched a b * den

/-- Function `_is_close_match` from `daily_state_report_fetcher.py`; the threshold is
passed as the exact rational `num/den`. -/
def isCloseMatch (a b : Str) (num den : Nat) : Bool :=
  if a = [] ∨ b = [] then false
  else seqRatioGE a b num den

/-- Function `_commodity_matches` from `daily_state_report_fetcher.py`: normalize
both, test emptiness, equality, mutual substring, then the fuzzy ratio at
threshold 0.87. -/
def commodityMatches (parsedCommodity targetName : Str) : Bool :=
  let p := normalizeText parsedCommodity
  let t := normalizeText targetName
  if p = [] ∨ t = [] then false
  else if p = t then true
  else if containsSeq t p || containsSeq p t then true
  else isCloseMatch p t 87 100

/-! ## Report parser (`parse_daily_state_excel`)

A spreadsheet is a grid of cells; a cell is `none` for NaN/blank, or the
`str()` rendering of its content.  `parse_daily_state_excel` reads cells
positionally and otherwise treats them opaquely. -/

/-- One spreadsheet row. -/
abbrev Row := List (Option Str)

/-- One spreadsheet. -/
abbrev Grid := List Row

/-- Python `str(row.iloc[0]).strip() if pd.notna(...) else ""` (and `None` when the
row has no cells). -/
def firstOf (row : Row) : Str :=
  match row.head? with
  | some (some s) => pyStrip s
  | _ => []

/-- Python `row.isna().all()`. -/
def rowAllNA (row : Row) : Bool := row.all (fun c => c.isNone)

/-- Python `s.split(":", 1)`: everything after the first colon, or `none` when the
string has no colon (in which case the parser keeps its previous state). -/
def afterColon : Str → Option Str
  | [] => none
  | c :: t => if c = 58 then some t else afterColon t

/-- One parsed market observation (the dict appended by
`parse_daily_state_excel`). -/
structure PriceRow where
  group : Option Str
  commodity : Option Str
  market : Str
  arrivals : Option Str
  unit_arrivals : Option Str
  variety : Option Str
  min_price : Option Str
  max_price : Option Str
  modal_price : Option Str
  unit_price : Option Str
deriving DecidableEq, Repr

/-- Build the emitted dict for a market data row: positional columns, with
missing/NaN cells mapped to `none` and the variety cell stripped. -/
def mkDataRow (g c : Option Str) (row : Row) : PriceRow :=
  { group := g
    commodity := c
    market := firstOf row
    arrivals := row.getD 1 none
    unit_arrivals := row.getD 2 none
    variety := (row.getD 3 none).map pyStrip
    min_price := row.getD 4 none
    max_price := row.getD 5 none
    modal_price := row.getD 6 none
    unit_price := row.getD 7 none }

/-- The scan of `parse_daily_state_excel` over the data rows, carrying
`current_group` and `current_commodity` (both initially `None`). -/
def parseLoop : List Row → Option Str → Option Str → List PriceRow
  | [], _, _ => []
  | row :: rest, g, c =>
    let first := firstOf row
    if rowAllNA row = true ∨ first = strLit "nan" ∨ first = [] then
      parseLoop rest g c
    else if startsList (strLit "Commodity Group Name") first = true then
      parseLoop rest
        (match afterColon first with
          | some t => some (pyStrip t)
          | none => g) c
    else if startsList (strLit "Commodity Name") first = true then
      parseLoop rest g
        (match afterColon first with
          | some t => some (pyStrip t)
          | none => c)
    else if first ≠ strLit "Market" ∧ first ≠ strLit "Variety" ∧
        startsList (strLit "Commodity") first = false ∧
        g.isSome = true ∧ c.isSome = true then
      mkDataRow g c row :: parseLoop rest g c
    else
      parseLoop rest g c

/-- Function `parse_daily_state_excel`: empty workbook yields nothing; otherwise skip
the first 3 rows (title/blank/header) and scan. -/
def parseGrid (grid : Grid) : List PriceRow :=
  if grid = [] then []
  else
    let rows := grid.drop 3
    if rows = [] then []
    else parseLoop rows none none

/-! ## Trend aggregator (`get_trending_crops`)

`get_trending_crops` reads only the `commodity` and `modal_price` fields of
the parsed rows; `TRow` is that view, with the numeric modal price as an
exact rational. -/

/-- The fields of a parsed row that the trend aggregator reads. -/
structure TRow where
  commodity : Option Str
  modal_price : Option ℚ
deriving DecidableEq, Repr

/-- A trending-crops entry. -/
structure TrendEntry where
  commodity : Str
  old_avg_modal : ℚ
  new_avg_modal : ℚ
  pct_change : ℚ
deriving DecidableEq, Repr

/-- Append a row under its commodity key, keeping dict insertion order. -/
def insertAssoc (k : Str) (r : TRow) : List (Str × List TRow) → List (Str × List TRow)
  | [] => [(k, [r])]
  | (k', rs) :: t =>
    if k' = k then (k', rs ++ [r]) :: t else (k', rs) :: insertAssoc k r t

/-- Function `_group_by_commodity`: group rows by commodity name, skipping rows with
falsy (`None` or empty) commodity; iteration order of the result is
first-occurrence order, like a Python dict. -/
def groupByComm (rows : List TRow) : List (Str × List TRow) :=
  rows.foldl
    (fun acc r =>
      match r.commodity with
      | some k => if k = [] then acc else insertAssoc k r acc
      | none => acc)
    []

/-- Association-list lookup (`commodity in grouped1` / `grouped1[commodity]`). -/
def lookupA (k : Str) : List (Str × List TRow) → Option (List TRow)
  | [] => none
  | (k', v) :: t => if k' = k then some v else lookupA k t

/-- Function `_calculate_avg_modal_price`: arithmetic mean of the non-null modal
prices, `None` when there are none. -/
def avgModal (rows : List TRow) : Option ℚ :=
  let ps := rows.filterMap (fun r => r.modal_price)
  if ps = [] then none else some (ps.sum / ps.length)

/-- Round half to even to an integer (Python `round` on an exact value). -/
def rheInt (q : ℚ) : ℤ :=
  let f := q.floor
  if q - f < 1/2 then f
  else if (1 : ℚ)/2 < q - f then f + 1
  else if f % 2 = 0 then f else f + 1

/-- Python `round(q, n)` in exact arithmetic. -/
def pyRound (q : ℚ) (n : Nat) : ℚ := (rheInt (q * 10 ^ n) : ℚ) / 10 ^ n

/-- Insert into a descending-by-`pct_change` list, after any entry with an
equal or larger key — the stable descending order of Python's
`sort(key=..., reverse=True)`. -/
def insDesc (e : TrendEntry) : List TrendEntry → List TrendEntry
  | [] => [e]
  | x :: xs => if x.pct_change < e.pct_change then e :: x :: xs else x :: insDesc e xs

/-- Stable descending sort by `pct_change`. -/
def sortDesc (l : List TrendEntry) : List TrendEntry :=
  l.foldl (fun acc e => insDesc e acc) []

/-- The aggregation core of `get_trending_crops`, from the two parsed (and
optionally district-filtered) row lists onward: group both snapshots by
commodity, keep commodities of the new snapshot that also occur in the old
one with a defined non-zero old average, keep strictly positive percentage
changes, sort descending, truncate to `top_n`. -/
def trendingCore (rows1 rows2 : List TRow) (topN : Nat) : List TrendEntry :=
  let g1 := groupByComm rows1
  let g2 := groupByComm rows2
  let trending := g2.filterMap
    (fun p =>
      match lookupA p.1 g1 with
      | none => none
      | some rows1l =>
        match avgModal rows1l, avgModal p.2 with
        | some a1, some a2 =>
          if a1 = 0 then none
          else
            if 0 < (a2 - a1) / a1 then
              some ⟨p.1, pyRound a1 2, pyRound a2 2, pyRound ((a2 - a1) / a1) 4⟩
            else none
        | _, _ => none)
  (sortDesc trending).take topN

/-! ## Retrieval orchestrator (`fetch_daily_state_report`)

Dates are integer day numbers; the HTTP collaborator is an oracle from
dates to grids (`none` for any failure: timeout, HTTP error, JSON error
body, non-spreadsheet content type); the downloads directory is an
association list from dates to grids, into which every successful download
is inserted (even one later rejected by the row-count threshold, as the
file is written before parsing). -/

/-- One record of `districts.json`. -/
structure District where
  district_name : Str
  markets : List Str

/-- The external collaborators of `fetch_daily_state_report`. -/
structure Env where
  http : Int → Option Grid
  districtFileExists : Bool
  districts : List District

/-- The cache directory: date ↦ stored grid. -/
abbrev Cache := List (Int × Grid)

/-- Python `file_path.exists()` plus reading the file. -/
def cacheLookup (c : Cache) (d : Int) : Option Grid :=
  match c.find? (fun p => p.1 == d) with
  | some p => some p.2
  | none => none

/-- Write (or overwrite) the file for a date. -/
def cacheInsert (c : Cache) (d : Int) (g : Grid) : Cache :=
  (d, g) :: c.filter (fun p => ¬(p.1 = d))

/-- The filter arguments of one `fetch_daily_state_report` call. -/
structure Query where
  districtName : Option Str
  commodityName : Option Str
  refresh : Bool

/-- What one anchor's processing decides: return these rows and this date,
or fall through to the next candidate date. -/
inductive Outcome where
  | done (rows : List PriceRow) (date : Int)
  | next
deriving DecidableEq, Repr

/-- What a whole `fetch_daily_state_report` call produces, plus the cache
left behind and the log of dates passed to `requests.get` (in order; its
length is the number of HTTP fetch attempts). -/
structure FetchResult where
  rows : List PriceRow
  date : Int
  cache : Cache
  log : List Int
deriving DecidableEq, Repr

/-- One fallback date's acquisition step inside a cascade: download when the
file is absent or a refresh is forced (`none` result = skip this fallback
date), otherwise reuse the cached file. -/
def cascadeFetch (env : Env) (refresh : Bool) (d : Int) (cache : Cache) :
    Option Grid × Cache × List Int :=
  if (cacheLookup cache d).isNone || refresh then
    match env.http d with
    | none => (none, cache, [d])
    | some g => (some g, cacheInsert cache d g, [d])
  else (cacheLookup cache d, cache, [])

/-- District-stage fallback cascade over the fallback offsets: accept the
first fallback date whose file parses to more than 5 rows and has district
rows; yields `(district_rows, parsed_rows, date)`. -/
def cascadeLoopD (env : Env) (refresh : Bool) (initial : Int) (dmn : List Str) :
    List Int → Cache → Option (List PriceRow × List PriceRow × Int) × Cache × List Int
  | [], cache => (none, cache, [])
  | fd :: rest, cache =>
    match cascadeFetch env refresh (initial - fd) cache with
    | (none, cache1, l1) =>
      match cascadeLoopD env refresh initial dmn rest cache1 with
      | (res, cache2, l2) => (res, cache2, l1 ++ l2)
    | (some g, cache1, l1) =>
      if 5 < (parseGrid g).length then
        if (parseGrid g).filter
            (fun r => (dmn.contains (normalize_market_name r.market) : Bool)) ≠ [] then
          ((parseGrid g).filter
              (fun r => (dmn.contains (normalize_market_name r.market) : Bool)),
            parseGrid g, initial - fd)
          |> (fun t => (some t, cache1, l1))
        else
          match cascadeLoopD env refresh initial dmn rest cache1 with
          | (res, cache2, l2) => (res, cache2, l1 ++ l2)
      else
        match cascadeLoopD env refresh initial dmn rest cache1 with
        | (res, cache2, l2) => (res, cache2, l1 ++ l2)

/-- Commodity-stage fallback cascade: like the district cascade but the
accepted fallback must additionally have rows matching the commodity (by
the `commodity` field only — the cascades do not retry the group field). -/
def cascadeLoopC (env : Env) (refresh : Bool) (initial : Int) (dmn : List Str)
    (cn : Str) :
    List Int → Cache → Option (List PriceRow × Int) × Cache × List Int
  | [], cache => (none, cache, [])
  | fd :: rest, cache =>
    match cascadeFetch env refresh (initial - fd) cache with
    | (none, cache1, l1) =>
      match cascadeLoopC env refresh initial dmn cn rest cache1 with
      | (res, cache2, l2) => (res, cache2, l1 ++ l2)
    | (some g, cache1, l1) =>
      if 5 < (parseGrid g).length then
        let drows := (parseGrid g).filter
          (fun r => (dmn.contains (normalize_market_name r.market) : Bool))
        if drows ≠ [] then
          let crows := drows.filter
            (fun r => commodityMatches (r.commodity.getD []) cn)
          if crows ≠ [] then (some (crows, initial - fd), cache1, l1)
          else
            match cascadeLoopC env refresh initial dmn cn rest cache1 with
            | (res, cache2, l2) => (res, cache2, l1 ++ l2)
        else
          match cascadeLoopC env refresh initial dmn cn rest cache1 with
          | (res, cache2, l2) => (res, cache2, l1 ++ l2)
      else
        match cascadeLoopC env refresh initial dmn cn rest cache1 with
        | (res, cache2, l2) => (res, cache2, l1 ++ l2)

/-- The commodity filter applied to district-filtered rows: match the
`commodity` field, fall back to the `group` field, then (first anchor only)
run the commodity cascade; otherwise abandon this anchor. -/
def commodityStageD (env : Env) (q : Query) (initial : Int) (allowFb : Bool)
    (dmn : List Str) (d : Int) (cache : Cache) (drows : List PriceRow)
    (log : List Int) : Outcome × Cache × List Int :=
  match q.commodityName with
  | none => (.done drows d, cache, log)
  | some cn =>
    let byName := drows.filter (fun r => commodityMatches (r.commodity.getD []) cn)
    if byName ≠ [] then (.done byName d, cache, log)
    else
      let byGroup := drows.filter (fun r => commodityMatches (r.group.getD []) cn)
      if byGroup ≠ [] then (.done byGroup d, cache, log)
      else if allowFb = false then (.next, cache, log)
      else
        match cascadeLoopC env q.refresh initial dmn cn [1, 2, 3] cache with
        | (some (crows, d1), cache1, l1) => (.done crows d1, cache1, log ++ l1)
        | (none, cache1, l1) => (.next, cache1, log ++ l1)

/-- The filtering stages applied to one anchor's accepted parsed rows
(identical in the cached-file and freshly-downloaded branches of the
source). -/
def applyFilters (env : Env) (q : Query) (initial : Int) (allowFb : Bool)
    (d : Int) (cache : Cache) (rows : List PriceRow) (log : List Int) :
    Outcome × Cache × List Int :=
  match q.districtName with
  | none =>
    match q.commodityName with
    | none => (.done rows d, cache, log)
    | some cn =>
      let byName := rows.filter (fun r => commodityMatches (r.commodity.getD []) cn)
      if byName ≠ [] then (.done byName d, cache, log)
      else
        let byGroup := rows.filter (fun r => commodityMatches (r.group.getD []) cn)
        if byGroup ≠ [] then (.done byGroup d, cache, log)
        else (.done [] d, cache, log)
  | some dnm =>
    if env.districtFileExists = false then (.done rows d, cache, log)
    else
      match env.districts.find?
          (fun de => pyLower (pyStrip de.district_name) == pyLower (pyStrip dnm)) with
      | none => (.done [] d, cache, log)
      | some entry =>
        if entry.markets = [] then (.done [] d, cache, log)
        else
          let dmn := entry.markets.map normalize_market_name
          let drows := rows.filter
            (fun r => (dmn.contains (normalize_market_name r.market) : Bool))
          if drows = [] then
            if allowFb = false then (.next, cache, log)
            else
              match cascadeLoopD env q.refresh initial dmn [1, 2, 3] cache with
              | (some (drows1, _, d1), cache1, l1) =>
                commodityStageD env q initial allowFb dmn d1 cache1 drows1 (log ++ l1)
              | (none, cache1, l1) => (.next, cache1, log ++ l1)
          else commodityStageD env q initial allowFb dmn d cache drows log

/-- The download path for one anchor date: one HTTP attempt; the saved file
is parsed and accepted only with strictly more than 5 rows. -/
def downloadPath (env : Env) (q : Query) (initial : Int) (allowFb : Bool)
    (d : Int) (cache : Cache) : Outcome × Cache × List Int :=
  match env.http d with
  | none => (.next, cache, [d])
  | some g =>
    let cache1 := cacheInsert cache d g
    if 5 < (parseGrid g).length then
      applyFilters env q initial allowFb d cache1 (parseGrid g) [d]
    else (.next, cache1, [d])

/-- Process one anchor date: use the cached file when present (and no
refresh requested) and it parses to at least one row; otherwise download. -/
def tryAnchor (env : Env) (q : Query) (initial : Int) (allowFb : Bool)
    (d : Int) (cache : Cache) : Outcome × Cache × List Int :=
  match cacheLookup cache d, q.refresh with
  | some g, false =>
    if 0 < (parseGrid g).length then
      applyFilters env q initial allowFb d cache (parseGrid g) []
    else downloadPath env q initial allowFb d cache
  | some _, true => downloadPath env q initial allowFb d cache
  | none, _ => downloadPath env q initial allowFb d cache

/-- The outer loop over candidate dates; only the first candidate may enter
the fallback cascades.  Exhaustion returns empty rows and the first
candidate's date. -/
def fetchLoop (env : Env) (q : Query) (initial : Int) :
    Bool → List Int → Cache → List Int → FetchResult
  | _, [], cache, log => ⟨[], initial, cache, log⟩
  | first, d :: rest, cache, log =>
    match tryAnchor env q initial first d cache with
    | (.done rows dt, cache1, l1) => ⟨rows, dt, cache1, log ++ l1⟩
    | (.next, cache1, l1) => fetchLoop env q initial false rest cache1 (log ++ l1)

/-- Candidate dates: the given target date alone, else today minus 2, 3, 4. -/
def anchorsOf (target : Option Int) (today : Int) : List Int :=
  match target with
  | some t => [t]
  | none => [today - 2, today - 3, today - 4]

/-- Function `fetch_daily_state_report` (a well-formed `target_date` string is
abstracted to its day number). -/
def fetchDSR (env : Env) (target : Option Int) (today : Int)
    (districtName commodityName : Option Str) (refresh : Bool)
    (cache0 : Cache) : FetchResult :=
  let anchors := anchorsOf target today
  fetchLoop env ⟨districtName, commodityName, refresh⟩ (anchors.headD today)
    true anchors cache0 []

/-- Exhaustion predicate for the outer loop: every candidate date's
processing falls through to the next candidate (`Outcome.next`), for
whatever reason — download failure, a parse yielding too few rows for the
acceptance threshold, or a filter stage that abandons the anchor — with the
cache threaded through exactly as the loop threads it. -/
def allNext (env : Env) (q : Query) (initial : Int) :
    Bool → List Int → Cache → Bool
  | _, [], _ => true
  | first, d :: rest, cache =>
    match tryAnchor env q initial first d cache with
    | (.next, cache1, _) => allNext env q initial false rest cache1
    | (.done _ _, _, _) => false

/-! ## Concrete data used in examples, counterexamples and witnesses -/

/-- The spec's worked parser example: title, blank, header, a group marker
for "Fibre Crops", a commodity marker for "Cotton", one Akola market row. -/
def exGrid : Grid :=
  [ [some (strLit "Daily State Report")],
    [none],
    [some (strLit "Market"), some (strLit "Arrivals")],
    [some (strLit "Commodity Group Name : Fibre Crops")],
    [some (strLit "Commodity Name : Cotton")],
    [some (strLit "Akola"), some (strLit "120"), some (strLit "Quintal"),
      some (strLit "Good"), some (strLit "5000"), some (strLit "5600"),
      some (strLit "5300"), some (strLit "Rs/Quintal")] ]

/-- The single row the parser emits from `exGrid`. -/
def exPriceRow : PriceRow :=
  { group := some (strLit "Fibre Crops")
    commodity := some (strLit "Cotton")
    market := strLit "Akola"
    arrivals := some (strLit "120")
    unit_arrivals := some (strLit "Quintal")
    variety := some (strLit "Good")
    min_price := some (strLit "5000")
    max_price := some (strLit "5600")
    modal_price := some (strLit "5300")
    unit_price := some (strLit "Rs/Quintal") }

/-- Grid `exGrid` extended with a second group marker ("Oil Seeds") immediately
followed by a market data row, with no new commodity marker in between. -/
def exGrid2 : Grid :=
  exGrid ++
    [ [some (strLit "Commodity Group Name : Oil Seeds")],
      [some (strLit "Nagpur"), none, none, none, none, none,
        some (strLit "4000"), none] ]

/-- The second row emitted from `exGrid2`: the new group paired with the
commodity carried over from the earlier section. -/
def exPriceRow2 : PriceRow :=
  { group := some (strLit "Oil Seeds")
    commodity := some (strLit "Cotton")
    market := strLit "Nagpur"
    arrivals := none
    unit_arrivals := none
    variety := none
    min_price := none
    max_price := none
    modal_price := some (strLit "4000")
    unit_price := none }

/-- A market data row with the given market name and a 5300 modal price. -/
def marketRow (nm : Str) : Row :=
  [some nm, none, none, none, none, none, some (strLit "5300"), none]

/-- A grid whose parse yields exactly `k` rows. -/
def gridOfRows (k : Nat) : Grid :=
  [ [some (strLit "Daily State Report")],
    [none],
    [some (strLit "Market")],
    [some (strLit "Commodity Group Name : Fibre Crops")],
    [some (strLit "Commodity Name : Cotton")] ] ++
  (List.range k).map (fun _ => marketRow (strLit "Akola"))

/-- An environment whose every download fails. -/
def envNone : Env := ⟨fun _ => none, true, []⟩

/-- An environment whose every download yields the 5-row grid. -/
def envG5 : Env := ⟨fun _ => some (gridOfRows 5), true, []⟩

/-- An environment whose every download yields the 6-row grid. -/
def envG6 : Env := ⟨fun _ => some (gridOfRows 6), true, []⟩

/-- A cache holding `exGrid` for day 100. -/
def cacheC1 : Cache := [(100, exGrid)]

/-- A cache holding `exGrid` for day 7 only (with anchors 8, 7, 6). -/
def cacheC7 : Cache := [(7, exGrid)]

/-- A cache holding the 5-row grid for day 0. -/
def cache5 : Cache := [(0, gridOfRows 5)]

/-- Old snapshot of the spec's trend example: Cotton at 100, Onion at 50. -/
def exOld : List TRow :=
  [⟨some (strLit "Cotton"), some 100⟩, ⟨some (strLit "Onion"), some 50⟩]

/-- New snapshot of the spec's trend example: Cotton at 110, Onion at 40. -/
def exNew : List TRow :=
  [⟨some (strLit "Cotton"), some 110⟩, ⟨some (strLit "Onion"), some 40⟩]

/-- The single trend entry produced from `exOld`/`exNew`. -/
def exTrendCotton : TrendEntry :=
  ⟨strLit "Cotton", 100, 110, 1/10⟩

/-- A 4-row grid (title/blank/header/one data row) with no group or
commodity marker anywhere. -/
def gridNoMarkers : Grid :=
  [ [some (strLit "Daily State Report")],
    [none],
    [some (strLit "Market")],
    [some (strLit "Akola"), some (strLit "120")] ]

/-! ### Character-level facts -/

theorem pyLowerCh_idem (c : Nat) : pyLowerCh (pyLowerCh c) = pyLowerCh c := by
  by_cases h : 65 ≤ c ∧ c ≤ 90
  · have hc : pyLowerCh c = c + 32 := by rw [pyLowerCh, if_pos h]
    rw [hc, pyLowerCh, if_neg (by omega)]
  · have hc : pyLowerCh c = c := by rw [pyLowerCh, if_neg h]
    rw [hc, hc]

theorem isSpaceCh_pyLowerCh (c : Nat) : isSpaceCh (pyLowerCh c) = isSpaceCh c := by
  by_cases h : 65 ≤ c ∧ c ≤ 90
  · rw [pyLowerCh, if_pos h]
    have h1 : isSpaceCh (c + 32) = false := by
      simp only [isSpaceCh, Bool.or_eq_false_iff, beq_eq_false_iff_ne, ne_eq]
      omega
    have h2 : isSpaceCh c = false := by
      simp only [isSpaceCh, Bool.or_eq_false_iff, beq_eq_false_iff_ne, ne_eq]
      omega
    rw [h1, h2]
  · rw [pyLowerCh, if_neg h]

theorem isWordCh_pyLowerCh (c : Nat) : isWordCh (pyLowerCh c) = isWordCh c := by
  by_cases h : 65 ≤ c ∧ c ≤ 90
  · rw [pyLowerCh, if_pos h]
    have h1 : isWordCh (c + 32) = true := by
      simp only [isWordCh, Bool.or_eq_true, Bool.and_eq_true, decide_eq_true_eq,
        beq_iff_eq]
      omega
    have h2 : isWordCh c = true := by
      simp only [isWordCh, Bool.or_eq_true, Bool.and_eq_true, decide_eq_true_eq,
        beq_iff_eq]
      omega
    rw [h1, h2]
  · rw [pyLowerCh, if_neg h]

theorem pyLowerCh_space (c : Nat) (h : isSpaceCh c = true) : pyLowerCh c = c := by
  simp only [isSpaceCh, Bool.or_eq_true, beq_iff_eq] at h
  rw [pyLowerCh, if_neg (show ¬(65 ≤ c ∧ c ≤ 90) by omega)]

/-! ### Structure of normalized output

`collapseWS` output over word/space-filtered input consists of word
characters and isolated ordinary spaces; a string of that shape is fixed by
a second pass of each stage.  `Tidy` captures the shape. -/

/-- The output shape of `collapseWS`: every character is either a word
character or an ordinary space, and no two spaces are adjacent. -/
def Tidy : Str → Prop
  | [] => True
  | [c] => isWordCh c = true ∨ c = 32
  | c :: d :: t =>
    (isWordCh c = true ∨ c = 32) ∧ (c = 32 → isWordCh d = true) ∧ Tidy (d :: t)

theorem tidy_cons_of_word {c : Nat} {t : Str} (hc : isWordCh c = true)
    (ht : Tidy t) : Tidy (c :: t) := by
  cases t with
  | nil => exact Or.inl hc
  | cons d t =>
    refine ⟨Or.inl hc, fun h => absurd hc ?_, ht⟩
    subst h
    decide

theorem tidy_tail {c : Nat} {t : Str} (h : Tidy (c :: t)) : Tidy t := by
  cases t with
  | nil => trivial
  | cons d t => exact h.2.2

theorem tidy_head {c : Nat} {t : Str} (h : Tidy (c :: t)) :
    isWordCh c = true ∨ c = 32 := by
  cases t with
  | nil => exact h
  | cons d t => exact h.1

theorem tidy_cons {c : Nat} {l : Str} (h1 : isWordCh c = true ∨ c = 32)
    (h2 : c = 32 → ∀ d, l.head? = some d → isWordCh d = true)
    (h3 : Tidy l) : Tidy (c :: l) := by
  cases l with
  | nil => exact h1
  | cons d t => exact ⟨h1, fun hc => h2 hc d rfl, h3⟩

theorem word_not_space {c : Nat} (h : isWordCh c = true) : isSpaceCh c = false := by
  simp only [isWordCh, Bool.or_eq_true, Bool.and_eq_true, decide_eq_true_eq,
    beq_iff_eq] at h
  simp only [isSpaceCh, Bool.or_eq_false_iff, beq_eq_false_iff_ne, ne_eq]
  omega

/-- Output of `collapseWS` over word-or-space input is `Tidy`; in run-mode
(`true`) it additionally cannot start with a space. -/
theorem collapseWS_tidy {s : Str}
    (h : ∀ c ∈ s, isWordCh c = true ∨ isSpaceCh c = true) :
    (Tidy (collapseWS true s) ∧
      ∀ d, (collapseWS true s).head? = some d → isWordCh d = true) ∧
    Tidy (collapseWS false s) := by
  induction s with
  | nil => exact ⟨⟨trivial, by intro d hd; simp [collapseWS] at hd⟩, trivial⟩
  | cons c t ih =>
    have ht : ∀ x ∈ t, isWordCh x = true ∨ isSpaceCh x = true :=
      fun x hx => h x (List.mem_cons_of_mem _ hx)
    have hc := h c (List.mem_cons_self _ _)
    rcases ih ht with ⟨⟨ihT, ihH⟩, ihF⟩
    by_cases hs : isSpaceCh c = true
    · refine ⟨⟨by simpa [collapseWS, hs] using ihT,
        by simpa [collapseWS, hs] using ihH⟩, ?_⟩
      have : collapseWS false (c :: t) = 32 :: collapseWS true t := by
        simp [collapseWS, hs]
      rw [this]
      exact tidy_cons (Or.inr rfl) (fun _ => ihH) ihT
    · have hw : isWordCh c = true := hc.resolve_right hs
      have e1 : collapseWS true (c :: t) = c :: collapseWS false t := by
        simp [collapseWS, hs]
      have e0 : collapseWS false (c :: t) = c :: collapseWS false t := by
        simp [collapseWS, hs]
      refine ⟨⟨?_, ?_⟩, ?_⟩
      · rw [e1]; exact tidy_cons_of_word hw ihF
      · rw [e1]; intro d hd
        simp only [List.head?_cons, Option.some.injEq] at hd
        exact hd ▸ hw
      · rw [e0]; exact tidy_cons_of_word hw ihF

/-- A `Tidy` string is a fixed point of whitespace collapsing. -/
theorem collapseWS_fix {l : Str} (h : Tidy l) :
    collapseWS false l = l ∧
      ((∀ d, l.head? = some d → isWordCh d = true) → collapseWS true l = l) := by
  induction l with
  | nil => exact ⟨rfl, fun _ => rfl⟩
  | cons c t ih =>
    rcases ih (tidy_tail h) with ⟨ihF, ihT⟩
    rcases tidy_head h with hw | hsp
    · have hs := word_not_space hw
      constructor
      · simp [collapseWS, hs, ihF]
      · intro _; simp [collapseWS, hs, ihF]
    · subst hsp
      have hs : isSpaceCh 32 = true := by decide
      have hhead : ∀ d, t.head? = some d → isWordCh d = true := by
        intro d hd
        cases t with
        | nil => simp at hd
        | cons e t' =>
          simp only [List.head?_cons, Option.some.injEq] at hd
          cases t' with
          | nil => exact hd ▸ (h.2.1 rfl)
          | cons f t'' => exact hd ▸ (h.2.1 rfl)
      constructor
      · simp only [collapseWS, hs, if_pos, if_true]
        rw [if_neg (by simp)]
        exact congrArg _ (ihT hhead)
      · intro hbad
        have := hbad 32 rfl
        exact absurd this (by decide)

theorem stripR_head {l : Str} : stripR l = [] ∨ (stripR l).head? = l.head? := by
  cases l with
  | nil => exact Or.inl rfl
  | cons c t =>
    by_cases h : isSpaceCh c = true ∧ stripR t = []
    · left; simp [stripR, h]
    · right; simp [stripR, if_neg h]

theorem stripR_idem (l : Str) : stripR (stripR l) = stripR l := by
  induction l with
  | nil => rfl
  | cons c t ih =>
    by_cases h : isSpaceCh c = true ∧ stripR t = []
    · simp [stripR, h]
    · have e : stripR (c :: t) = c :: stripR t := by simp [stripR, if_neg h]
      rw [e, stripR, ih]
      simp only [if_neg h, e]

theorem tidy_stripR {l : Str} (h : Tidy l) : Tidy (stripR l) := by
  induction l with
  | nil => exact h
  | cons c t ih =>
    by_cases hc : isSpaceCh c = true ∧ stripR t = []
    · simp only [stripR, if_pos hc]; trivial
    · have e : stripR (c :: t) = c :: stripR t := by simp [stripR, if_neg hc]
      rw [e]
      refine tidy_cons (tidy_head h) ?_ (ih (tidy_tail h))
      intro hc32 d hd
      rcases stripR_head (l := t) with h0 | h0
      · rw [h0] at hd; simp at hd
      · rw [h0] at hd
        cases t with
        | nil => simp at hd
        | cons e t' =>
          simp only [List.head?_cons, Option.some.injEq] at hd
          subst hc32
          cases t' with
          | nil => exact hd ▸ (h.2.1 rfl)
          | cons f t'' => exact hd ▸ (h.2.1 rfl)

theorem tidy_dropWhileSpace {l : Str} (h : Tidy l) :
    Tidy (l.dropWhile isSpaceCh) ∧
      (∀ d, (l.dropWhile isSpaceCh).head? = some d → isWordCh d = true) := by
  cases l with
  | nil => exact ⟨trivial, by intro d hd; simp at hd⟩
  | cons c t =>
    rcases tidy_head h with hw | hsp
    · rw [List.dropWhile_cons_of_neg (by simp [word_not_space hw])]
      refine ⟨h, ?_⟩
      intro d hd
      simp only [List.head?_cons, Option.some.injEq] at hd
      exact hd ▸ hw
    · subst hsp
      rw [List.dropWhile_cons_of_pos (by decide)]
      have hhead : ∀ d, t.head? = some d → isWordCh d = true := by
        intro d hd
        cases t with
        | nil => simp at hd
        | cons e t' =>
          simp only [List.head?_cons, Option.some.injEq] at hd
          cases t' with
          | nil => exact hd ▸ (h.2.1 rfl)
          | cons f t'' => exact hd ▸ (h.2.1 rfl)
      cases t with
      | nil => exact ⟨trivial, by intro d hd; simp at hd⟩
      | cons e t' =>
        have he : isWordCh e = true := hhead e rfl
        rw [List.dropWhile_cons_of_neg (by simp [word_not_space he])]
        exact ⟨tidy_tail h, fun d hd => by
          simp only [List.head?_cons, Option.some.injEq] at hd
          exact hd ▸ he⟩

/-- A character exposed by `dropWhile p` at the head fails `p`. -/
theorem dropWhile_head_not {p : Nat → Bool} {l : Str} {d : Nat}
    (h : (l.dropWhile p).head? = some d) : p d = false := by
  induction l with
  | nil => simp at h
  | cons c t ih =>
    by_cases hc : p c = true
    · rw [List.dropWhile_cons_of_pos hc] at h
      exact ih h
    · rw [List.dropWhile_cons_of_neg hc] at h
      simp only [List.head?_cons, Option.some.injEq] at h
      subst h
      simp at hc
      simp [hc]

/-- Python `str.strip()` is idempotent. -/
theorem pyStrip_idem (l : Str) : pyStrip (pyStrip l) = pyStrip l := by
  unfold pyStrip
  cases hx : stripR (l.dropWhile isSpaceCh) with
  | nil => rfl
  | cons c t =>
    have hd : (stripR (l.dropWhile isSpaceCh)).head? = (l.dropWhile isSpaceCh).head? := by
      rcases stripR_head (l := l.dropWhile isSpaceCh) with h0 | h0
      · rw [h0] at hx; cases hx
      · exact h0
    have hc : isSpaceCh c = false := by
      apply dropWhile_head_not (p := isSpaceCh) (l := l)
      rw [← hd, hx]; rfl
    rw [List.dropWhile_cons_of_neg (by simp [hc]), ← hx, stripR_idem]

/-- Strip preserves tidiness. -/
theorem tidy_pyStrip {l : Str} (h : Tidy l) : Tidy (pyStrip l) :=
  tidy_stripR (tidy_dropWhileSpace h).1

/-! ### Membership through the normalization stages -/

theorem mem_collapseWS {c : Nat} : ∀ {flag : Bool} {l : Str},
    c ∈ collapseWS flag l → c = 32 ∨ c ∈ l := by
  intro flag l
  induction l generalizing flag with
  | nil => intro h; simp [collapseWS] at h
  | cons d t ih =>
    intro h
    by_cases hs : isSpaceCh d = true
    · cases flag with
      | true =>
        simp only [collapseWS, hs, if_true] at h
        rcases ih h with h' | h'
        · exact Or.inl h'
        · exact Or.inr (List.mem_cons_of_mem _ h')
      | false =>
        simp only [collapseWS, hs, if_true] at h
        rcases List.mem_cons.mp h with h' | h'
        · exact Or.inl h'
        · rcases ih h' with h'' | h''
          · exact Or.inl h''
          · exact Or.inr (List.mem_cons_of_mem _ h'')
    · simp only [collapseWS, hs] at h
      rw [if_neg (by simp [hs])] at h
      rcases List.mem_cons.mp h with h' | h'
      · exact Or.inr (h' ▸ List.mem_cons_self _ _)
      · rcases ih h' with h'' | h''
        · exact Or.inl h''
        · exact Or.inr (List.mem_cons_of_mem _ h'')

theorem mem_stripR {c : Nat} : ∀ {l : Str}, c ∈ stripR l → c ∈ l := by
  intro l
  induction l with
  | nil => intro h; simp [stripR] at h
  | cons d t ih =>
    intro h
    by_cases hd : isSpaceCh d = true ∧ stripR t = []
    · simp [stripR, hd] at h
    · rw [stripR] at h
      simp only [if_neg hd] at h
      rcases List.mem_cons.mp h with h' | h'
      · exact h' ▸ List.mem_cons_self _ _
      · exact List.mem_cons_of_mem _ (ih h')

theorem mem_dropWhile {c : Nat} {p : Nat → Bool} : ∀ {l : Str},
    c ∈ l.dropWhile p → c ∈ l := by
  intro l
  induction l with
  | nil => intro h; simp at h
  | cons d t ih =>
    intro h
    by_cases hd : p d = true
    · rw [List.dropWhile_cons_of_pos hd] at h
      exact List.mem_cons_of_mem _ (ih h)
    · rwa [List.dropWhile_cons_of_neg hd] at h

theorem mem_pyStrip {c : Nat} {l : Str} (h : c ∈ pyStrip l) : c ∈ l :=
  mem_dropWhile (mem_stripR h)

/-- Pointwise-fixed maps are the identity. -/
theorem map_fix {f : Nat → Nat} : ∀ {l : Str}, (∀ c ∈ l, f c = c) → l.map f = l := by
  intro l
  induction l with
  | nil => intro _; rfl
  | cons d t ih =>
    intro h
    simp only [List.map_cons, h d (List.mem_cons_self _ _),
      ih (fun c hc => h c (List.mem_cons_of_mem _ hc))]

/-- Pointwise-true filters are the identity. -/
theorem filter_fix {p : Nat → Bool} : ∀ {l : Str}, (∀ c ∈ l, p c = true) → l.filter p = l := by
  intro l
  induction l with
  | nil => intro _; rfl
  | cons d t ih =>
    intro h
    rw [List.filter_cons_of_pos (h d (List.mem_cons_self _ _)),
      ih (fun c hc => h c (List.mem_cons_of_mem _ hc))]

theorem pyLowerCh_not_upper (c : Nat) : ¬(65 ≤ pyLowerCh c ∧ pyLowerCh c ≤ 90) := by
  by_cases h : 65 ≤ c ∧ c ≤ 90
  · rw [pyLowerCh, if_pos h]; omega
  · rw [pyLowerCh, if_neg h]; omega

theorem pyLowerCh_fix {c : Nat} (h : ¬(65 ≤ c ∧ c ≤ 90)) : pyLowerCh c = c := by
  rw [pyLowerCh, if_neg h]

theorem ws_lt_128 {c : Nat} (h : (isWordCh c || isSpaceCh c) = true) : c < 128 := by
  simp only [isWordCh, isSpaceCh, Bool.or_eq_true, Bool.and_eq_true,
    decide_eq_true_eq, beq_iff_eq] at h
  omega

theorem pyLower_idem (s : Str) : pyLower (pyLower s) = pyLower s := by
  induction s with
  | nil => rfl
  | cons c t ih => simp only [pyLower, List.map_cons] at ih ⊢; rw [pyLowerCh_idem, ih]

/-! ### Characters of `normalize_market_name` output -/

theorem nmn_chars {s : Str} :
    ∀ c ∈ normalize_market_name s, (isWordCh c || isSpaceCh c) = true ∧ pyLowerCh c = c := by
  intro c hc
  unfold normalize_market_name at hc
  rcases mem_collapseWS (mem_pyStrip hc) with h32 | hu
  · subst h32; exact ⟨by decide, by decide⟩
  · have h1 := List.mem_filter.mp hu
    have hws : (isWordCh c || isSpaceCh c) = true := h1.2
    have h2 := List.mem_filter.mp h1.1
    rcases List.mem_map.mp h2.1 with ⟨a, ha, hfa⟩
    rcases List.mem_map.mp ha with ⟨b, _, hb⟩
    refine ⟨hws, ?_⟩
    apply pyLowerCh_fix
    subst hfa hb
    by_cases h160 : pyLowerCh b = nbspCh
    · rw [if_pos h160]; omega
    · rw [if_neg h160]; exact pyLowerCh_not_upper b

theorem nmn_tidy (s : Str) : Tidy (normalize_market_name s) := by
  unfold normalize_market_name
  apply tidy_pyStrip
  apply (collapseWS_tidy ?_).2
  intro c hc
  have h := (List.mem_filter.mp hc).2
  rcases Bool.or_eq_true _ _ |>.mp h with h' | h'
  · exact Or.inl h'
  · exact Or.inr h'

/-! ### Characters of `_normalize_text` output -/

theorem nt_chars {s : Str} :
    ∀ c ∈ normalizeText s, (isWordCh c || isSpaceCh c) = true ∧ pyLowerCh c = c := by
  intro c hc
  unfold normalizeText at hc
  rcases mem_collapseWS hc with h32 | hv
  · subst h32; exact ⟨by decide, by decide⟩
  · rcases List.mem_map.mp hv with ⟨a, ha, hfa⟩
    by_cases hws : (isWordCh a || isSpaceCh a) = true
    · rw [if_pos hws] at hfa
      subst hfa
      refine ⟨hws, ?_⟩
      rcases List.mem_map.mp (mem_pyStrip ha) with ⟨b, _, hb⟩
      exact hb ▸ pyLowerCh_fix (pyLowerCh_not_upper b)
    · rw [if_neg hws] at hfa
      subst hfa
      exact ⟨by decide, by decide⟩

theorem nt_tidy (s : Str) : Tidy (normalizeText s) := by
  unfold normalizeText
  apply (collapseWS_tidy ?_).2
  intro c hc
  rcases List.mem_map.mp hc with ⟨a, _, hfa⟩
  by_cases hws : (isWordCh a || isSpaceCh a) = true
  · rw [if_pos hws] at hfa
    subst hfa
    rcases Bool.or_eq_true _ _ |>.mp hws with h' | h'
    · exact Or.inl h'
    · exact Or.inr h'
  · rw [if_neg hws] at hfa
    subst hfa
    exact Or.inr rfl

/-! ### Idempotence and case-insensitivity -/

theorem normalize_market_name_idem (s : Str) :
    normalize_market_name (normalize_market_name s) = normalize_market_name s := by
  have hch := nmn_chars (s := s)
  have e1 : pyLower (normalize_market_name s) = normalize_market_name s :=
    map_fix (fun c hc => (hch c hc).2)
  have e2 : (normalize_market_name s).map (fun c => if c = nbspCh then 32 else c)
      = normalize_market_name s := by
    apply map_fix
    intro c hc
    rw [if_neg]
    have := ws_lt_128 (hch c hc).1
    unfold nbspCh
    omega
  have e3 : (normalize_market_name s).filter (fun c => c ≠ zwspCh)
      = normalize_market_name s := by
    apply filter_fix
    intro c hc
    have := ws_lt_128 (hch c hc).1
    simp only [ne_eq, decide_eq_true_eq]
    unfold zwspCh
    omega
  have e4 : (normalize_market_name s).filter (fun c => isWordCh c || isSpaceCh c)
      = normalize_market_name s :=
    filter_fix (fun c hc => (hch c hc).1)
  have e5 : collapseWS false (normalize_market_name s) = normalize_market_name s :=
    (collapseWS_fix (nmn_tidy s)).1
  have e6 : pyStrip (normalize_market_name s) = normalize_market_name s := by
    unfold normalize_market_name
    exact pyStrip_idem _
  rw [normalize_market_name, e1, e2, e3, e4, e5, e6]

theorem normalizeText_twice (s : Str) :
    normalizeText (normalizeText s) = pyStrip (normalizeText s) := by
  have hch := nt_chars (s := s)
  have e1 : pyLower (normalizeText s) = normalizeText s :=
    map_fix (fun c hc => (hch c hc).2)
  have e2 : (pyStrip (normalizeText s)).map
        (fun c => if isWordCh c || isSpaceCh c then c else 32)
      = pyStrip (normalizeText s) := by
    apply map_fix
    intro c hc
    rw [if_pos (hch c (mem_pyStrip hc)).1]
  have e3 : collapseWS false (pyStrip (normalizeText s)) = pyStrip (normalizeText s) :=
    (collapseWS_fix (tidy_pyStrip (nt_tidy s))).1
  rw [normalizeText, e1, e2, e3]

theorem normalize_market_name_lower (s : Str) :
    normalize_market_name (pyLower s) = normalize_market_name s := by
  rw [normalize_market_name, pyLower_idem, normalize_market_name]

theorem normalizeText_lower (s : Str) :
    normalizeText (pyLower s) = normalizeText s := by
  rw [normalizeText, pyLower_idem, normalizeText]

/-! ## Claim C2 -/

/-- C2 fails as stated: `_normalize_text` is not idempotent.  On `"a."` the
trailing period becomes a trailing space, which only a second application
strips: `_normalize_text("a.") = "a "` but
`_normalize_text(_normalize_text("a.")) = "a"`. -/
theorem claim_C2_counterexample :
    normalizeText (strLit "a.") = strLit "a " ∧
    normalizeText (normalizeText (strLit "a.")) = strLit "a" ∧
    normalizeText (normalizeText (strLit "a.")) ≠ normalizeText (strLit "a.") := by
  refine ⟨by decide, by decide, by decide⟩

/-- C2 (amended): `normalize_market_name` is idempotent and
case-insensitive; `_normalize_text` is case-insensitive, but a second
application additionally strips the boundary whitespace left by edge
punctuation — `_normalize_text ∘ _normalize_text = strip ∘ _normalize_text`
— so it is idempotent exactly on inputs whose normalization has no leading
or trailing space; in particular both agree on `"Soyabean"`/`"SOYABEAN"`. -/
theorem claim_C2_amended (s : Str) :
    normalize_market_name (normalize_market_name s) = normalize_market_name s ∧
    normalizeText (normalizeText s) = pyStrip (normalizeText s) ∧
    normalize_market_name (pyLower s) = normalize_market_name s ∧
    normalizeText (pyLower s) = normalizeText s ∧
    normalize_market_name (strLit "Soyabean") = normalize_market_name (strLit "SOYABEAN") ∧
    normalizeText (strLit "Soyabean") = normalizeText (strLit "SOYABEAN") :=
  ⟨normalize_market_name_idem s, normalizeText_twice s,
    normalize_market_name_lower s, normalizeText_lower s, by decide, by decide⟩

/-! ## Claim C8 -/

/-- C8: `_commodity_matches` returns false when either label normalizes to
empty; true on normalized equality or mutual substring; otherwise true iff
the Ratcliff/Obershelp ratio `2*M/T` of the normalized labels is at least
0.87; and concretely `soyabean ~ soybean` matches while `cotton ~ onion`
does not. -/
theorem claim_C8 (a b : Str) :
    ((normalizeText a = [] ∨ normalizeText b = []) → commodityMatches a b = false) ∧
    (normalizeText a ≠ [] → normalizeText b ≠ [] →
      (normalizeText a = normalizeText b ∨
        containsSeq (normalizeText b) (normalizeText a) = true ∨
        containsSeq (normalizeText a) (normalizeText b) = true) →
      commodityMatches a b = true) ∧
    (normalizeText a ≠ [] → normalizeText b ≠ [] →
      normalizeText a ≠ normalizeText b →
      containsSeq (normalizeText b) (normalizeText a) = false →
      containsSeq (normalizeText a) (normalizeText b) = false →
      (commodityMatches a b = true ↔
        87 * ((normalizeText a).length + (normalizeText b).length) ≤
          2 * totalMatched (normalizeText a) (normalizeText b) * 100)) ∧
    commodityMatches (strLit "soyabean") (strLit "soybean") = true ∧
    commodityMatches (strLit "cotton") (strLit "onion") = false := by
  refine ⟨?_, ?_, ?_, by decide, by decide⟩
  · intro h
    simp only [commodityMatches]
    rw [if_pos h]
  · intro ha hb hor
    simp only [commodityMatches]
    rw [if_neg (by tauto)]
    rcases hor with h | h | h
    · rw [if_pos h]
    · by_cases he : normalizeText a = normalizeText b
      · rw [if_pos he]
      · rw [if_neg he, if_pos (by simp [h])]
    · by_cases he : normalizeText a = normalizeText b
      · rw [if_pos he]
      · rw [if_neg he, if_pos (by simp [h])]
  · intro ha hb hne h1 h2
    simp only [commodityMatches]
    rw [if_neg (by tauto), if_neg hne, if_neg (by simp [h1, h2]),
      isCloseMatch, if_neg (by tauto)]
    simp only [seqRatioGE, decide_eq_true_eq]

/-! ## Parser lemmas -/

theorem parseLoop_mem : ∀ (rows : List Row) (g c : Option Str) (r : PriceRow),
    r ∈ parseLoop rows g c → r.group.isSome = true ∧ r.commodity.isSome = true := by
  intro rows
  induction rows with
  | nil => intro g c r h; simp [parseLoop] at h
  | cons row rest ih =>
    intro g c r h
    simp only [parseLoop] at h
    split at h
    · exact ih _ _ _ h
    · split at h
      · exact ih _ _ _ h
      · split at h
        · exact ih _ _ _ h
        · split at h
          · next hcond =>
            rcases List.mem_cons.mp h with h' | h'
            · subst h'
              exact ⟨hcond.2.2.2.1, hcond.2.2.2.2⟩
            · exact ih _ _ _ h'
          · exact ih _ _ _ h

theorem parseLoop_noGroup : ∀ (rows : List Row) (c : Option Str),
    (∀ row ∈ rows, startsList (strLit "Commodity Group Name") (firstOf row) = false) →
    parseLoop rows none c = [] := by
  intro rows
  induction rows with
  | nil => intro c _; rfl
  | cons row rest ih =>
    intro c hno
    have hrow := hno row (List.mem_cons_self _ _)
    have hrest := fun r hr => hno r (List.mem_cons_of_mem _ hr)
    simp only [parseLoop]
    split
    · exact ih c hrest
    · split
      · next hcg => rw [hrow] at hcg; cases hcg
      · split
        · exact ih _ hrest
        · split
          · next hcond => simp at hcond
          · exact ih c hrest

theorem startsList_append_mono : ∀ (x y s : Str),
    startsList (x ++ y) s = true → startsList x s = true := by
  intro x
  induction x with
  | nil => intro y s _; rfl
  | cons a t ih =>
    intro y s h
    cases s with
    | nil => simp [startsList] at h
    | cons b u =>
      simp only [List.cons_append, startsList, Bool.and_eq_true] at h ⊢
      exact ⟨h.1, ih y u h.2⟩

/-! ## Claim C3 -/

/-- C3: every emitted `PriceRow` has non-null group and commodity; a grid
with fewer than 4 rows, or one whose post-header rows contain no
group/commodity marker, parses to the empty list; and the spec's worked
example grid yields exactly one row, with modal price 5300. -/
theorem claim_C3 :
    (∀ (grid : Grid) (r : PriceRow), r ∈ parseGrid grid →
        r.group ≠ none ∧ r.commodity ≠ none) ∧
    (∀ grid : Grid, grid.length < 4 → parseGrid grid = []) ∧
    (∀ grid : Grid,
        (∀ row ∈ grid.drop 3,
            startsList (strLit "Commodity Group Name") (firstOf row) = false ∧
            startsList (strLit "Commodity Name") (firstOf row) = false) →
        parseGrid grid = []) ∧
    parseGrid exGrid = [exPriceRow] ∧
    exPriceRow.modal_price = some (strLit "5300") := by
  refine ⟨?_, ?_, ?_, by decide, by decide⟩
  · intro grid r h
    simp only [parseGrid] at h
    split at h
    · simp at h
    · split at h
      · simp at h
      · have := parseLoop_mem _ _ _ _ h
        exact ⟨Option.isSome_iff_ne_none.mp this.1,
          Option.isSome_iff_ne_none.mp this.2⟩
  · intro grid hlen
    by_cases hg : grid = []
    · simp [parseGrid, hg]
    · have hd : grid.drop 3 = [] := by
        apply List.drop_eq_nil_of_le
        omega
      simp [parseGrid, hg, hd]
  · intro grid hno
    by_cases hg : grid = []
    · simp [parseGrid, hg]
    · by_cases hd : grid.drop 3 = []
      · simp [parseGrid, hg, hd]
      · simp only [parseGrid, if_neg hg, if_neg hd]
        exact parseLoop_noGroup _ _ (fun row hr => (hno row hr).1)

/-- Witness for C3: the invariant at the worked example, a 3-row grid, and
a 4-row grid with no markers. -/
theorem claim_C3_witness :
    (exPriceRow.group ≠ none ∧ exPriceRow.commodity ≠ none) ∧
    parseGrid (exGrid.take 3) = [] ∧
    parseGrid gridNoMarkers = [] :=
  ⟨claim_C3.1 exGrid exPriceRow (by decide),
   claim_C3.2.1 (exGrid.take 3) (by decide),
   claim_C3.2.2.1 gridNoMarkers (by decide)⟩

/-! ## Claim C10 -/

/-- C10: a "Commodity Group Name" marker row replaces `current_group` but
never resets `current_commodity`; a market data row right after such a
second marker is emitted pairing the new group with the carried-over
commodity, as the concrete two-section grid shows. -/
theorem claim_C10 :
    (∀ (mrow : Row) (gPart : Str) (rows : List Row) (g c : Option Str),
        rowAllNA mrow = false →
        firstOf mrow ≠ strLit "nan" →
        firstOf mrow ≠ [] →
        startsList (strLit "Commodity Group Name") (firstOf mrow) = true →
        afterColon (firstOf mrow) = some gPart →
        parseLoop (mrow :: rows) g c = parseLoop rows (some (pyStrip gPart)) c) ∧
    (∀ (drow : Row) (rows : List Row) (gN cO : Str),
        rowAllNA drow = false →
        firstOf drow ≠ strLit "nan" →
        firstOf drow ≠ [] →
        firstOf drow ≠ strLit "Market" →
        firstOf drow ≠ strLit "Variety" →
        startsList (strLit "Commodity") (firstOf drow) = false →
        parseLoop (drow :: rows) (some gN) (some cO) =
          mkDataRow (some gN) (some cO) drow ::
            parseLoop rows (some gN) (some cO)) ∧
    parseGrid exGrid2 = [exPriceRow, exPriceRow2] ∧
    exPriceRow2.group = some (strLit "Oil Seeds") ∧
    exPriceRow2.commodity = some (strLit "Cotton") := by
  refine ⟨?_, ?_, by decide, by decide, by decide⟩
  · intro mrow gPart rows g c hna hnan hne hcg hac
    simp only [parseLoop]
    rw [if_neg ?hskip, if_pos hcg, hac]
    case hskip =>
      rintro (h | h | h)
      · rw [hna] at h; cases h
      · exact hnan h
      · exact hne h
  · intro drow rows gN cO hna hnan hne hm hv hsc
    have hcg : startsList (strLit "Commodity Group Name") (firstOf drow) = false := by
      cases hx : startsList (strLit "Commodity Group Name") (firstOf drow) with
      | false => rfl
      | true =>
        have e : strLit "Commodity" ++ strLit " Group Name"
            = strLit "Commodity Group Name" := by decide
        have := startsList_append_mono (strLit "Commodity") (strLit " Group Name")
          (firstOf drow) (by rw [e]; exact hx)
        rw [hsc] at this; cases this
    have hcn : startsList (strLit "Commodity Name") (firstOf drow) = false := by
      cases hx : startsList (strLit "Commodity Name") (firstOf drow) with
      | false => rfl
      | true =>
        have e : strLit "Commodity" ++ strLit " Name"
            = strLit "Commodity Name" := by decide
        have := startsList_append_mono (strLit "Commodity") (strLit " Name")
          (firstOf drow) (by rw [e]; exact hx)
        rw [hsc] at this; cases this
    simp only [parseLoop]
    rw [if_neg ?hskip2, if_neg (by simp [hcg]), if_neg (by simp [hcn]),
      if_pos ⟨hm, hv, hsc, rfl, rfl⟩]
    case hskip2 =>
      rintro (h | h | h)
      · rw [hna] at h; cases h
      · exact hnan h
      · exact hne h

/-- Witness for C10: both step equations at concrete rows. -/
theorem claim_C10_witness :
    parseLoop [[some (strLit "Commodity Group Name : Oil Seeds")]]
        (some (strLit "Fibre Crops")) (some (strLit "Cotton")) =
      parseLoop [] (some (pyStrip (strLit " Oil Seeds"))) (some (strLit "Cotton")) ∧
    parseLoop [marketRow (strLit "Nagpur")]
        (some (strLit "Oil Seeds")) (some (strLit "Cotton")) =
      mkDataRow (some (strLit "Oil Seeds")) (some (strLit "Cotton"))
          (marketRow (strLit "Nagpur")) ::
        parseLoop [] (some (strLit "Oil Seeds")) (some (strLit "Cotton")) :=
  ⟨claim_C10.1 _ _ _ _ _ (by decide) (by decide) (by decide) (by decide) (by decide),
   claim_C10.2.1 _ _ _ _ (by decide) (by decide) (by decide) (by decide)
     (by decide) (by decide)⟩

/-! ## Trend aggregator lemmas -/

theorem mem_insDesc {x e : TrendEntry} :
    ∀ {l : List TrendEntry}, x ∈ insDesc e l → x = e ∨ x ∈ l := by
  intro l
  induction l with
  | nil =>
    intro h
    simp only [insDesc, List.mem_singleton] at h
    exact Or.inl h
  | cons y ys ih =>
    intro h
    simp only [insDesc] at h
    split at h
    · rcases List.mem_cons.mp h with h' | h'
      · exact Or.inl h'
      · exact Or.inr h'
    · rcases List.mem_cons.mp h with h' | h'
      · exact Or.inr (h' ▸ List.mem_cons_self _ _)
      · rcases ih h' with h'' | h''
        · exact Or.inl h''
        · exact Or.inr (List.mem_cons_of_mem _ h'')

theorem mem_foldl_insDesc :
    ∀ (l acc : List TrendEntry) (x : TrendEntry),
      x ∈ l.foldl (fun a e => insDesc e a) acc → x ∈ acc ∨ x ∈ l := by
  intro l
  induction l with
  | nil => intro acc x h; exact Or.inl h
  | cons e t ih =>
    intro acc x h
    rcases ih (insDesc e acc) x h with h' | h'
    · rcases mem_insDesc h' with h'' | h''
      · exact Or.inr (h'' ▸ List.mem_cons_self _ _)
      · exact Or.inl h''
    · exact Or.inr (List.mem_cons_of_mem _ h')

theorem mem_sortDesc {x : TrendEntry} {l : List TrendEntry}
    (h : x ∈ sortDesc l) : x ∈ l := by
  rcases mem_foldl_insDesc l [] x h with h' | h'
  · simp at h'
  · exact h'

theorem pairwise_insDesc {e : TrendEntry} :
    ∀ {l : List TrendEntry},
      l.Pairwise (fun x y => y.pct_change ≤ x.pct_change) →
      (insDesc e l).Pairwise (fun x y => y.pct_change ≤ x.pct_change) := by
  intro l
  induction l with
  | nil => intro _; simp [insDesc]
  | cons y ys ih =>
    intro h
    rw [List.pairwise_cons] at h
    simp only [insDesc]
    split
    · next hlt =>
      rw [List.pairwise_cons]
      refine ⟨?_, List.pairwise_cons.mpr h⟩
      intro z hz
      rcases List.mem_cons.mp hz with h' | h'
      · exact h' ▸ le_of_lt hlt
      · exact le_trans (h.1 z h') (le_of_lt hlt)
    · next hge =>
      rw [List.pairwise_cons]
      refine ⟨?_, ih h.2⟩
      intro z hz
      rcases mem_insDesc hz with h' | h'
      · exact h' ▸ le_of_not_lt hge
      · exact h.1 z h'

theorem pairwise_foldl_insDesc :
    ∀ (l acc : List TrendEntry),
      acc.Pairwise (fun x y => y.pct_change ≤ x.pct_change) →
      (l.foldl (fun a e => insDesc e a) acc).Pairwise
        (fun x y => y.pct_change ≤ x.pct_change) := by
  intro l
  induction l with
  | nil => intro acc h; exact h
  | cons e t ih => intro acc h; exact ih _ (pairwise_insDesc h)

theorem sortDesc_sorted (l : List TrendEntry) :
    (sortDesc l).Pairwise (fun x y => y.pct_change ≤ x.pct_change) :=
  pairwise_foldl_insDesc l [] List.Pairwise.nil

/-! ## Claim C4 -/

/-- C4: every trending entry comes from a commodity present in both
snapshots' groupings with a defined non-zero old average and a strictly
positive relative change `(new-old)/old`, with averages rounded to 2 and
the change to 4 decimal places; the list is sorted descending by
`pct_change` and has at most `top_n` entries; and on the spec's example
(Cotton 100→110, Onion 50→40) the output is exactly Cotton with
`pct_change = 0.10`. -/
theorem claim_C4 (rows1 rows2 : List TRow) (topN : Nat) :
    (∀ e ∈ trendingCore rows1 rows2 topN,
      ∃ key rows2l rows1l a1 a2,
        (key, rows2l) ∈ groupByComm rows2 ∧
        lookupA key (groupByComm rows1) = some rows1l ∧
        avgModal rows1l = some a1 ∧
        avgModal rows2l = some a2 ∧
        a1 ≠ 0 ∧
        0 < (a2 - a1) / a1 ∧
        e = ⟨key, pyRound a1 2, pyRound a2 2, pyRound ((a2 - a1) / a1) 4⟩) ∧
    (trendingCore rows1 rows2 topN).Pairwise
      (fun x y => y.pct_change ≤ x.pct_change) ∧
    (trendingCore rows1 rows2 topN).length ≤ topN ∧
    trendingCore exOld exNew 3 = [exTrendCotton] := by
  refine ⟨?_, ?_, ?_, by with_unfolding_all decide⟩
  · intro e he
    simp only [trendingCore] at he
    have he1 := mem_sortDesc ((List.take_sublist _ _).subset he)
    rcases List.mem_filterMap.mp he1 with ⟨p, hp, heq⟩
    cases hl : lookupA p.1 (groupByComm rows1) with
    | none =>
      simp only [hl] at heq
      exact Option.noConfusion heq
    | some rows1l =>
      simp only [hl] at heq
      cases ha1 : avgModal rows1l with
      | none =>
        simp only [ha1] at heq
        exact Option.noConfusion heq
      | some a1 =>
        cases ha2 : avgModal p.2 with
        | none =>
          simp only [ha1, ha2] at heq
          exact Option.noConfusion heq
        | some a2 =>
          simp only [ha1, ha2] at heq
          split at heq
          · exact Option.noConfusion heq
          · next hz =>
            split at heq
            · next hpos =>
              refine ⟨p.1, p.2, rows1l, a1, a2, hp, hl, ha1, ha2, hz, hpos, ?_⟩
              cases heq
              rfl
            · exact Option.noConfusion heq
  · simp only [trendingCore]
    exact List.Pairwise.sublist (List.take_sublist _ _) (sortDesc_sorted _)
  · simp only [trendingCore]
    exact List.length_take_le _ _

/-- Witness for C4: the per-entry characterization applied to the example's
Cotton entry. -/
theorem claim_C4_witness :
    ∃ key rows2l rows1l a1 a2,
      (key, rows2l) ∈ groupByComm exNew ∧
      lookupA key (groupByComm exOld) = some rows1l ∧
      avgModal rows1l = some a1 ∧
      avgModal rows2l = some a2 ∧
      a1 ≠ 0 ∧
      0 < (a2 - a1) / a1 ∧
      exTrendCotton =
        ⟨key, pyRound a1 2, pyRound a2 2, pyRound ((a2 - a1) / a1) 4⟩ :=
  (claim_C4 exOld exNew 3).1 exTrendCotton (by with_unfolding_all decide)

/-! ## Orchestrator lemmas -/

theorem cacheLookup_nil (d : Int) : cacheLookup [] d = none := rfl

/-! ## Claim C6 -/

/-- C6: a fresh download is accepted exactly when it parses to strictly
more than 5 rows: at most 5 rows make the anchor fall through to the next
candidate date (whatever the filters), and with no filters more than 5 rows
are returned as-is. -/
theorem claim_C6 (env : Env) (q : Query) (initial : Int) (allowFb : Bool)
    (d : Int) (cache : Cache) (g : Grid)
    (hmiss : cacheLookup cache d = none ∨ q.refresh = true)
    (hhttp : env.http d = some g) :
    ((parseGrid g).length ≤ 5 →
      tryAnchor env q initial allowFb d cache =
        (.next, cacheInsert cache d g, [d])) ∧
    (q.districtName = none → q.commodityName = none →
      5 < (parseGrid g).length →
      tryAnchor env q initial allowFb d cache =
        (.done (parseGrid g) d, cacheInsert cache d g, [d])) := by
  have hTA : tryAnchor env q initial allowFb d cache =
      downloadPath env q initial allowFb d cache := by
    rcases hmiss with h | h
    · simp only [tryAnchor, h]
    · cases hc : cacheLookup cache d with
      | none => simp only [tryAnchor, hc]
      | some g' => simp only [tryAnchor, hc, h]
  constructor
  · intro hle
    rw [hTA]
    simp only [downloadPath, hhttp]
    rw [if_neg (by omega)]
  · intro hdn hcn hgt
    rw [hTA]
    simp only [downloadPath, hhttp]
    rw [if_pos hgt]
    simp only [applyFilters, hdn, hcn]

/-- Witness for C6: a 5-row download is rejected, a 6-row one accepted. -/
theorem claim_C6_witness :
    tryAnchor envG5 ⟨none, none, false⟩ 0 true 0 [] =
      (.next, cacheInsert [] 0 (gridOfRows 5), [0]) ∧
    tryAnchor envG6 ⟨none, none, false⟩ 0 true 0 [] =
      (.done (parseGrid (gridOfRows 6)) 0, cacheInsert [] 0 (gridOfRows 6), [0]) :=
  ⟨(claim_C6 envG5 ⟨none, none, false⟩ 0 true 0 [] (gridOfRows 5)
      (Or.inl rfl) rfl).1 (by decide),
   (claim_C6 envG6 ⟨none, none, false⟩ 0 true 0 [] (gridOfRows 6)
      (Or.inl rfl) rfl).2 rfl rfl (by decide)⟩

/-! ## Claim C9 -/

/-- C9: with `refresh_cache` false, a cached file that parses to at least
one row is used as-is — no HTTP fetch, no more-than-5 threshold — while the
very same grid obtained by a fresh download is rejected when it has at most
5 rows. -/
theorem claim_C9 :
    (∀ (env : Env) (initial : Int) (allowFb : Bool) (d : Int) (cache : Cache)
        (g : Grid),
      cacheLookup cache d = some g →
      0 < (parseGrid g).length →
      tryAnchor env ⟨none, none, false⟩ initial allowFb d cache =
        (.done (parseGrid g) d, cache, [])) ∧
    (∀ (env : Env) (initial : Int) (allowFb : Bool) (d : Int) (cache : Cache)
        (g : Grid),
      cacheLookup cache d = none →
      env.http d = some g →
      (parseGrid g).length ≤ 5 →
      tryAnchor env ⟨none, none, false⟩ initial allowFb d cache =
        (.next, cacheInsert cache d g, [d])) := by
  constructor
  · intro env initial allowFb d cache g hc hlen
    simp only [tryAnchor, hc]
    rw [if_pos hlen]
    simp only [applyFilters]
  · intro env initial allowFb d cache g hc hhttp hlen
    simp only [tryAnchor, hc, downloadPath, hhttp]
    rw [if_neg (by omega)]

/-- Witness for C9: the 5-row grid is served from cache (no fetch), and
rejected when downloaded instead. -/
theorem claim_C9_witness :
    tryAnchor envNone ⟨none, none, false⟩ 0 true 0 cache5 =
      (.done (parseGrid (gridOfRows 5)) 0, cache5, []) ∧
    tryAnchor envG5 ⟨none, none, false⟩ 9 true 9 [] =
      (.next, cacheInsert [] 9 (gridOfRows 5), [9]) :=
  ⟨claim_C9.1 envNone 0 true 0 cache5 (gridOfRows 5) rfl (by decide),
   claim_C9.2 envG5 9 true 9 [] (gridOfRows 5) rfl rfl (by decide)⟩

/-! ## Claim C1 -/

/-- C1 fails as stated: with a commodity filter, no district filter, and no
row matching by commodity or by group, `fetch_daily_state_report` does not
enter the fallback cascade even on the first (and only) anchor — it returns
immediately with empty rows, the anchor's own date, and an empty fetch log
(a cascade would have attempted dates 99, 98, 97). -/
theorem claim_C1_counterexample :
    (parseGrid exGrid).length = 1 ∧
    (parseGrid exGrid).filter
      (fun r => commodityMatches (r.commodity.getD []) (strLit "Brinjal")) = [] ∧
    (parseGrid exGrid).filter
      (fun r => commodityMatches (r.group.getD []) (strLit "Brinjal")) = [] ∧
    fetchDSR envNone (some 100) 0 none (some (strLit "Brinjal")) false cacheC1 =
      ⟨[], 100, cacheC1, []⟩ := by
  refine ⟨by decide, by decide, by decide, by decide⟩

/-- C1 (amended): when the commodity filter is applied with no district
filter and no row matches by its commodity field and none by its group
field, the call returns immediately with an empty row list and the current
anchor's date — no fallback cascade is entered (even on the first anchor)
and no further candidate date is tried. -/
theorem claim_C1_amended (env : Env) (q : Query) (initial : Int)
    (allowFb : Bool) (d : Int) (cache : Cache) (rows : List PriceRow)
    (log : List Int) (cn : Str)
    (hdn : q.districtName = none) (hcn : q.commodityName = some cn)
    (hname : rows.filter (fun r => commodityMatches (r.commodity.getD []) cn) = [])
    (hgroup : rows.filter (fun r => commodityMatches (r.group.getD []) cn) = []) :
    applyFilters env q initial allowFb d cache rows log = (.done [] d, cache, log) := by
  simp only [applyFilters, hdn, hcn]
  rw [if_neg (by simp [hname]), if_neg (by simp [hgroup])]

/-- Witness for C1's amended statement at the counterexample's data. -/
theorem claim_C1_witness :
    applyFilters envNone ⟨none, some (strLit "Brinjal"), false⟩ 100 true 100
      cacheC1 (parseGrid exGrid) [] = (.done [] 100, cacheC1, []) :=
  claim_C1_amended envNone ⟨none, some (strLit "Brinjal"), false⟩ 100 true 100
    cacheC1 (parseGrid exGrid) [] (strLit "Brinjal") rfl rfl (by decide) (by decide)

/-! ## Claim C7 -/

/-- C7 fails as stated: when no anchor produces accepted filtered rows the
function can still report a later anchor's date.  With anchors `[8, 7, 6]`,
a download failure on 8, and a cached file on 7 whose rows match no
commodity, the call returns empty rows with date 7, not the first anchor's
date 8. -/
theorem claim_C7_counterexample :
    fetchDSR envNone none 10 none (some (strLit "Brinjal")) false cacheC7 =
      ⟨[], 7, cacheC7, [8]⟩ ∧
    anchorsOf none 10 = [8, 7, 6] ∧
    (7 : Int) ≠ 8 := by
  refine ⟨by decide, by decide, by decide⟩

theorem fetchLoop_exhaust (env : Env) (q : Query) (initial : Int) :
    ∀ (ds : List Int) (first : Bool) (cache : Cache) (log : List Int),
      allNext env q initial first ds cache = true →
      (fetchLoop env q initial first ds cache log).rows = [] ∧
      (fetchLoop env q initial first ds cache log).date = initial := by
  intro ds
  induction ds with
  | nil => intro first cache log _; exact ⟨rfl, rfl⟩
  | cons d rest ih =>
    intro first cache log hall
    simp only [allNext] at hall
    simp only [fetchLoop]
    split
    · next rows dt cache1 l1 heq =>
      rw [heq] at hall
      simp at hall
    · next cache1 l1 heq =>
      rw [heq] at hall
      simp only at hall
      exact ih false cache1 (log ++ l1) hall

/-- C7 (amended): whenever every anchor's processing falls through to the
next candidate — by download failure, by a parse that misses the
more-than-5-row acceptance threshold, or by a filter stage abandoning the
anchor — the call returns empty rows together with the first anchor's
date, and (by totality of the model) never raises; but a filter stage that
finds parsed rows yet matches nothing returns empty rows early with the
current anchor's date, which on a later anchor differs from the first
anchor's. -/
theorem claim_C7_amended (env : Env) (target : Option Int) (today : Int)
    (dn cn : Option Str) (refresh : Bool) (cache0 : Cache)
    (hall : allNext env ⟨dn, cn, refresh⟩ ((anchorsOf target today).headD today)
        true (anchorsOf target today) cache0 = true) :
    (fetchDSR env target today dn cn refresh cache0).rows = [] ∧
    (fetchDSR env target today dn cn refresh cache0).date =
      (anchorsOf target today).headD today := by
  simp only [fetchDSR]
  exact fetchLoop_exhaust env ⟨dn, cn, refresh⟩ _ (anchorsOf target today) true
    cache0 [] hall

/-- Witness for C7's amended statement, through the acceptance-threshold
cause: every anchor downloads a 5-row report, each is rejected by the
more-than-5-row threshold, and the first anchor's date (8, for today = 10)
is reported with empty rows. -/
theorem claim_C7_witness :
    (fetchDSR envG5 none 10 none none false []).rows = [] ∧
    (fetchDSR envG5 none 10 none none false []).date = 8 :=
  have h := claim_C7_amended envG5 none 10 none none false [] (by decide)
  ⟨h.1, h.2.trans (by decide)⟩

/-! ## Fetch-count lemmas -/

theorem cascadeFetch_log (env : Env) (refresh : Bool) (d : Int) (cache : Cache) :
    (cascadeFetch env refresh d cache).2.2 = [] ∨
      (cascadeFetch env refresh d cache).2.2 = [d] := by
  simp only [cascadeFetch]
  split
  · cases env.http d with
    | none => exact Or.inr rfl
    | some g => exact Or.inr rfl
  · exact Or.inl rfl

theorem cascadeLoopD_log (env : Env) (refresh : Bool) (initial : Int)
    (dmn : List Str) :
    ∀ (fds : List Int) (cache : Cache),
      ((cascadeLoopD env refresh initial dmn fds cache).2.2).length ≤ fds.length ∧
      ∀ x ∈ (cascadeLoopD env refresh initial dmn fds cache).2.2,
        ∃ fd ∈ fds, x = initial - fd := by
  intro fds
  induction fds with
  | nil =>
    intro cache
    exact ⟨by simp [cascadeLoopD], fun x hx => absurd hx (by simp [cascadeLoopD])⟩
  | cons fd rest ih =>
    intro cache
    have hsucc : ∀ (l1 : List Int), l1 = [] ∨ l1 = [initial - fd] →
        l1.length ≤ (fd :: rest).length ∧
        ∀ x ∈ l1, ∃ fd' ∈ fd :: rest, x = initial - fd' := by
      intro l1 hl1
      rcases hl1 with h | h <;> subst h
      · exact ⟨by simp, fun x hx => absurd hx (by simp)⟩
      · refine ⟨by simp, fun x hx => ?_⟩
        simp only [List.mem_singleton] at hx
        exact ⟨fd, List.mem_cons_self _ _, hx⟩
    have hcont : ∀ (cache1 : Cache) (l1 : List Int), l1 = [] ∨ l1 = [initial - fd] →
        (l1 ++ (cascadeLoopD env refresh initial dmn rest cache1).2.2).length ≤
          (fd :: rest).length ∧
        ∀ x ∈ l1 ++ (cascadeLoopD env refresh initial dmn rest cache1).2.2,
          ∃ fd' ∈ fd :: rest, x = initial - fd' := by
      intro cache1 l1 hl1
      have hih := ih cache1
      constructor
      · rw [List.length_append, List.length_cons]
        rcases hl1 with h | h <;> subst h <;>
          simp only [List.length_nil, List.length_singleton] <;> omega
      · intro x hx
        rcases List.mem_append.mp hx with h | h
        · exact (hsucc l1 hl1).2 x h
        · rcases hih.2 x h with ⟨fd', hfd', hx'⟩
          exact ⟨fd', List.mem_cons_of_mem _ hfd', hx'⟩
    have hl1 := cascadeFetch_log env refresh (initial - fd) cache
    simp only [cascadeLoopD]
    split
    · next tup cache1 l1 heq =>
      rw [heq] at hl1
      simp only at hl1
      exact hcont cache1 l1 hl1
    · next tup g cache1 l1 heq =>
      rw [heq] at hl1
      simp only at hl1
      split
      · split
        · exact hsucc l1 hl1
        · exact hcont cache1 l1 hl1
      · exact hcont cache1 l1 hl1

theorem cascadeLoopC_log (env : Env) (refresh : Bool) (initial : Int)
    (dmn : List Str) (cn : Str) :
    ∀ (fds : List Int) (cache : Cache),
      ((cascadeLoopC env refresh initial dmn cn fds cache).2.2).length ≤ fds.length ∧
      ∀ x ∈ (cascadeLoopC env refresh initial dmn cn fds cache).2.2,
        ∃ fd ∈ fds, x = initial - fd := by
  intro fds
  induction fds with
  | nil =>
    intro cache
    exact ⟨by simp [cascadeLoopC], fun x hx => absurd hx (by simp [cascadeLoopC])⟩
  | cons fd rest ih =>
    intro cache
    have hsucc : ∀ (l1 : List Int), l1 = [] ∨ l1 = [initial - fd] →
        l1.length ≤ (fd :: rest).length ∧
        ∀ x ∈ l1, ∃ fd' ∈ fd :: rest, x = initial - fd' := by
      intro l1 hl1
      rcases hl1 with h | h <;> subst h
      · exact ⟨by simp, fun x hx => absurd hx (by simp)⟩
      · refine ⟨by simp, fun x hx => ?_⟩
        simp only [List.mem_singleton] at hx
        exact ⟨fd, List.mem_cons_self _ _, hx⟩
    have hcont : ∀ (cache1 : Cache) (l1 : List Int), l1 = [] ∨ l1 = [initial - fd] →
        (l1 ++ (cascadeLoopC env refresh initial dmn cn rest cache1).2.2).length ≤
          (fd :: rest).length ∧
        ∀ x ∈ l1 ++ (cascadeLoopC env refresh initial dmn cn rest cache1).2.2,
          ∃ fd' ∈ fd :: rest, x = initial - fd' := by
      intro cache1 l1 hl1
      have hih := ih cache1
      constructor
      · rw [List.length_append, List.length_cons]
        rcases hl1 with h | h <;> subst h <;>
          simp only [List.length_nil, List.length_singleton] <;> omega
      · intro x hx
        rcases List.mem_append.mp hx with h | h
        · exact (hsucc l1 hl1).2 x h
        · rcases hih.2 x h with ⟨fd', hfd', hx'⟩
          exact ⟨fd', List.mem_cons_of_mem _ hfd', hx'⟩
    have hl1 := cascadeFetch_log env refresh (initial - fd) cache
    simp only [cascadeLoopC]
    split
    · next tup cache1 l1 heq =>
      rw [heq] at hl1
      simp only at hl1
      exact hcont cache1 l1 hl1
    · next tup g cache1 l1 heq =>
      rw [heq] at hl1
      simp only at hl1
      split
      · split
        · split
          · exact hsucc l1 hl1
          · exact hcont cache1 l1 hl1
        · exact hcont cache1 l1 hl1
      · exact hcont cache1 l1 hl1

theorem commodityStageD_log (env : Env) (q : Query) (initial : Int)
    (allowFb : Bool) (dmn : List Str) (d : Int) (cache : Cache)
    (drows : List PriceRow) (log : List Int) :
    ∃ extra,
      (commodityStageD env q initial allowFb dmn d cache drows log).2.2 =
        log ++ extra ∧
      extra.length ≤ 3 ∧
      (∀ x ∈ extra, x = initial - 1 ∨ x = initial - 2 ∨ x = initial - 3) ∧
      (allowFb = false → extra = []) := by
  have hnil : ∃ extra, (log : List Int) = log ++ extra ∧ extra.length ≤ 3 ∧
      (∀ x ∈ extra, x = initial - 1 ∨ x = initial - 2 ∨ x = initial - 3) ∧
      (allowFb = false → extra = []) :=
    ⟨[], by simp, by simp, by simp, fun _ => rfl⟩
  simp only [commodityStageD]
  split
  · exact hnil
  · next cn heqcn =>
    split
    · exact hnil
    · split
      · exact hnil
      · split
        · exact hnil
        · next hfb =>
          have hfb' : allowFb = true := by
            cases allowFb with
            | false => exact absurd rfl hfb
            | true => rfl
          have hc := cascadeLoopC_log env q.refresh initial dmn cn [1, 2, 3] cache
          split
          · next crows d1 cache1 l1 heq =>
            rw [heq] at hc
            simp only at hc
            refine ⟨l1, rfl, by simpa using hc.1, ?_, ?_⟩
            · intro x hx
              rcases hc.2 x hx with ⟨fd, hfd, hx'⟩
              simp only [List.mem_cons, List.mem_singleton] at hfd
              rcases hfd with h | h | h | h <;> first
                | (subst h; simp [hx'])
                | simp at h
            · intro h; rw [h] at hfb'; cases hfb'
          · next cache1 l1 heq =>
            rw [heq] at hc
            simp only at hc
            refine ⟨l1, rfl, by simpa using hc.1, ?_, ?_⟩
            · intro x hx
              rcases hc.2 x hx with ⟨fd, hfd, hx'⟩
              simp only [List.mem_cons, List.mem_singleton] at hfd
              rcases hfd with h | h | h | h <;> first
                | (subst h; simp [hx'])
                | simp at h
            · intro h; rw [h] at hfb'; cases hfb'

theorem applyFilters_log (env : Env) (q : Query) (initial : Int)
    (allowFb : Bool) (d : Int) (cache : Cache) (rows : List PriceRow)
    (log : List Int) :
    ∃ extra,
      (applyFilters env q initial allowFb d cache rows log).2.2 = log ++ extra ∧
      extra.length ≤ 6 ∧
      (∀ x ∈ extra, x = initial - 1 ∨ x = initial - 2 ∨ x = initial - 3) ∧
      (allowFb = false → extra = []) := by
  have hnil : ∃ extra, (log : List Int) = log ++ extra ∧ extra.length ≤ 6 ∧
      (∀ x ∈ extra, x = initial - 1 ∨ x = initial - 2 ∨ x = initial - 3) ∧
      (allowFb = false → extra = []) :=
    ⟨[], by simp, by simp, by simp, fun _ => rfl⟩
  have hstage : ∀ (dmn : List Str) (d1 : Int) (cache1 : Cache)
      (drows : List PriceRow) (log1 : List Int),
      log1 = log ∨ (∃ l1, log1 = log ++ l1 ∧ l1.length ≤ 3 ∧
        (∀ x ∈ l1, x = initial - 1 ∨ x = initial - 2 ∨ x = initial - 3) ∧
        (allowFb = false → l1 = [])) →
      ∃ extra,
        (commodityStageD env q initial allowFb dmn d1 cache1 drows log1).2.2 =
          log ++ extra ∧
        extra.length ≤ 6 ∧
        (∀ x ∈ extra, x = initial - 1 ∨ x = initial - 2 ∨ x = initial - 3) ∧
        (allowFb = false → extra = []) := by
    intro dmn d1 cache1 drows log1 hlog1
    rcases commodityStageD_log env q initial allowFb dmn d1 cache1 drows log1 with
      ⟨e2, he2, hlen2, hmem2, hfb2⟩
    rcases hlog1 with h | ⟨l1, hl1, hlen1, hmem1, hfb1⟩
    · subst h
      exact ⟨e2, he2, by omega, hmem2, hfb2⟩
    · refine ⟨l1 ++ e2, by rw [he2, hl1, List.append_assoc], ?_, ?_, ?_⟩
      · rw [List.length_append]; omega
      · intro x hx
        rcases List.mem_append.mp hx with h | h
        · exact hmem1 x h
        · exact hmem2 x h
      · intro h; rw [hfb1 h, hfb2 h]; rfl
  simp only [applyFilters]
  split
  · split
    · exact hnil
    · split
      · exact hnil
      · split
        · exact hnil
        · exact hnil
  · split
    · exact hnil
    · split
      · exact hnil
      · next oentry entry heqf =>
        split
        · exact hnil
        · split
          · split
            · exact hnil
            · next hfb =>
              have hfb' : allowFb = true := by
                cases allowFb with
                | false => exact absurd rfl hfb
                | true => rfl
              split
              · next tup drows1 rows1 d1 cache1 l1 heq =>
                have hcl := cascadeLoopD_log env q.refresh initial
                  (entry.markets.map normalize_market_name) [1, 2, 3] cache
                rw [heq] at hcl
                simp only at hcl
                apply hstage
                right
                refine ⟨l1, rfl, by simpa using hcl.1, ?_, ?_⟩
                · intro x hx
                  rcases hcl.2 x hx with ⟨fd, hfd, hx'⟩
                  simp only [List.mem_cons, List.mem_singleton] at hfd
                  rcases hfd with h | h | h | h <;> first
                    | (subst h; simp [hx'])
                    | simp at h
                · intro h; rw [h] at hfb'; cases hfb'
              · next tup cache1 l1 heq =>
                have hcl := cascadeLoopD_log env q.refresh initial
                  (entry.markets.map normalize_market_name) [1, 2, 3] cache
                rw [heq] at hcl
                simp only at hcl
                refine ⟨l1, rfl, ?_, ?_, ?_⟩
                · have h3 := hcl.1
                  simp only [List.length_cons, List.length_nil] at h3
                  omega
                · intro x hx
                  rcases hcl.2 x hx with ⟨fd, hfd, hx'⟩
                  simp only [List.mem_cons, List.mem_singleton] at hfd
                  rcases hfd with h | h | h | h <;> first
                    | (subst h; simp [hx'])
                    | simp at h
                · intro h; rw [h] at hfb'; cases hfb'
          · apply hstage
            left
            rfl

theorem downloadPath_log (env : Env) (q : Query) (initial : Int)
    (allowFb : Bool) (d : Int) (cache : Cache) :
    ∃ extra,
      (downloadPath env q initial allowFb d cache).2.2 = d :: extra ∧
      extra.length ≤ 6 ∧
      (∀ x ∈ extra, x = initial - 1 ∨ x = initial - 2 ∨ x = initial - 3) ∧
      (allowFb = false → extra = []) := by
  simp only [downloadPath]
  split
  · exact ⟨[], rfl, by simp, by simp, fun _ => rfl⟩
  · next g heq =>
    split
    · rcases applyFilters_log env q initial allowFb d (cacheInsert cache d g)
          (parseGrid g) [d] with ⟨extra, he, hlen, hmem, hfb⟩
      exact ⟨extra, by simpa using he, hlen, hmem, hfb⟩
    · exact ⟨[], rfl, by simp, by simp, fun _ => rfl⟩

theorem tryAnchor_log (env : Env) (q : Query) (initial : Int)
    (allowFb : Bool) (d : Int) (cache : Cache) :
    ((tryAnchor env q initial allowFb d cache).2.2).length ≤ 7 ∧
    (∀ x ∈ (tryAnchor env q initial allowFb d cache).2.2,
      x = d ∨ x = initial - 1 ∨ x = initial - 2 ∨ x = initial - 3) ∧
    (allowFb = false →
      ((tryAnchor env q initial allowFb d cache).2.2).length ≤ 1 ∧
      ∀ x ∈ (tryAnchor env q initial allowFb d cache).2.2, x = d) := by
  have hdl : ∀ res : Outcome × Cache × List Int,
      res = downloadPath env q initial allowFb d cache →
      (res.2.2).length ≤ 7 ∧
      (∀ x ∈ res.2.2, x = d ∨ x = initial - 1 ∨ x = initial - 2 ∨ x = initial - 3) ∧
      (allowFb = false → (res.2.2).length ≤ 1 ∧ ∀ x ∈ res.2.2, x = d) := by
    intro res hres
    rcases downloadPath_log env q initial allowFb d cache with
      ⟨extra, he, hlen, hmem, hfb⟩
    rw [hres, he]
    refine ⟨by simp; omega, ?_, ?_⟩
    · intro x hx
      rcases List.mem_cons.mp hx with h | h
      · exact Or.inl h
      · exact Or.inr (hmem x h)
    · intro h
      rw [hfb h]
      exact ⟨by simp, fun x hx => by simpa using hx⟩
  have haf : ∀ g : Grid,
      ((applyFilters env q initial allowFb d cache (parseGrid g) []).2.2).length ≤ 7 ∧
      (∀ x ∈ (applyFilters env q initial allowFb d cache (parseGrid g) []).2.2,
        x = d ∨ x = initial - 1 ∨ x = initial - 2 ∨ x = initial - 3) ∧
      (allowFb = false →
        ((applyFilters env q initial allowFb d cache (parseGrid g) []).2.2).length ≤ 1 ∧
        ∀ x ∈ (applyFilters env q initial allowFb d cache (parseGrid g) []).2.2,
          x = d) := by
    intro g
    rcases applyFilters_log env q initial allowFb d cache (parseGrid g) [] with
      ⟨extra, he, hlen, hmem, hfb⟩
    rw [List.nil_append] at he
    rw [he]
    refine ⟨by omega, ?_, ?_⟩
    · intro x hx
      exact Or.inr (hmem x hx)
    · intro h
      rw [hfb h]
      exact ⟨by simp, fun x hx => by simp at hx⟩
  simp only [tryAnchor]
  split
  · split
    · exact haf _
    · exact hdl _ rfl
  · exact hdl _ rfl
  · exact hdl _ rfl

theorem fetchLoop_log (env : Env) (q : Query) (initial : Int) :
    ∀ (ds : List Int) (first : Bool) (cache : Cache) (log : List Int),
      ((fetchLoop env q initial first ds cache log).log).length ≤
        log.length + ds.length + (if first then 6 else 0) ∧
      ∀ x ∈ (fetchLoop env q initial first ds cache log).log,
        x ∈ log ∨ x ∈ ds ∨ x = initial - 1 ∨ x = initial - 2 ∨ x = initial - 3 := by
  intro ds
  induction ds with
  | nil =>
    intro first log cache
    constructor
    · simp only [fetchLoop]
      split <;> omega
    · intro x hx
      simp only [fetchLoop] at hx
      exact Or.inl hx
  | cons d rest ih =>
    intro first cache log
    have hta := tryAnchor_log env q initial first d cache
    simp only [fetchLoop]
    split
    · next rows dt cache1 l1 heq =>
      rw [heq] at hta
      simp only at hta
      constructor
      · rw [List.length_append]
        cases first with
        | true =>
          have h2 := hta.1
          simp only [List.length_cons, if_true]
          omega
        | false =>
          have h2 := (hta.2.2 rfl).1
          simp only [List.length_cons, Bool.false_eq_true, if_false]
          omega
      · intro x hx
        rcases List.mem_append.mp hx with h | h
        · exact Or.inl h
        · rcases hta.2.1 x h with h' | h' | h' | h'
          · exact Or.inr (Or.inl (h' ▸ List.mem_cons_self _ _))
          · exact Or.inr (Or.inr (Or.inl h'))
          · exact Or.inr (Or.inr (Or.inr (Or.inl h')))
          · exact Or.inr (Or.inr (Or.inr (Or.inr h')))
    · next cache1 l1 heq =>
      rw [heq] at hta
      simp only at hta
      have hih := ih false cache1 (log ++ l1)
      constructor
      · have h1 := hih.1
        rw [List.length_append] at h1
        simp only [Bool.false_eq_true, if_false] at h1
        cases first with
        | true =>
          have h2 := hta.1
          simp only [List.length_cons, if_true]
          omega
        | false =>
          have h2 := (hta.2.2 rfl).1
          simp only [List.length_cons, Bool.false_eq_true, if_false]
          omega
      · intro x hx
        rcases hih.2 x hx with h | h | h | h | h
        · rcases List.mem_append.mp h with h' | h'
          · exact Or.inl h'
          · rcases hta.2.1 x h' with h'' | h'' | h'' | h''
            · exact Or.inr (Or.inl (h'' ▸ List.mem_cons_self _ _))
            · exact Or.inr (Or.inr (Or.inl h''))
            · exact Or.inr (Or.inr (Or.inr (Or.inl h'')))
            · exact Or.inr (Or.inr (Or.inr (Or.inr h'')))
        · exact Or.inr (Or.inl (List.mem_cons_of_mem _ h))
        · exact Or.inr (Or.inr (Or.inl h))
        · exact Or.inr (Or.inr (Or.inr (Or.inl h)))
        · exact Or.inr (Or.inr (Or.inr (Or.inr h)))

/-! ## Claim C5 -/

/-- C5: each fallback cascade makes at most 3 fetch attempts, all at dates
computed from the first anchor (`initial - 1`, `initial - 2`,
`initial - 3`); and a whole `fetch_daily_state_report` call makes at most
12 HTTP fetch attempts, each at an anchor date or one of the first anchor's
three fallback dates (cascades being reachable only from the first
anchor). -/
theorem claim_C5 :
    (∀ (env : Env) (refresh : Bool) (initial : Int) (dmn : List Str)
        (cache : Cache),
      ((cascadeLoopD env refresh initial dmn [1, 2, 3] cache).2.2).length ≤ 3 ∧
      ∀ x ∈ (cascadeLoopD env refresh initial dmn [1, 2, 3] cache).2.2,
        x = initial - 1 ∨ x = initial - 2 ∨ x = initial - 3) ∧
    (∀ (env : Env) (refresh : Bool) (initial : Int) (dmn : List Str) (cn : Str)
        (cache : Cache),
      ((cascadeLoopC env refresh initial dmn cn [1, 2, 3] cache).2.2).length ≤ 3 ∧
      ∀ x ∈ (cascadeLoopC env refresh initial dmn cn [1, 2, 3] cache).2.2,
        x = initial - 1 ∨ x = initial - 2 ∨ x = initial - 3) ∧
    (∀ (env : Env) (target : Option Int) (today : Int) (dn cn : Option Str)
        (refresh : Bool) (cache0 : Cache),
      ((fetchDSR env target today dn cn refresh cache0).log).length ≤ 12 ∧
      ∀ x ∈ (fetchDSR env target today dn cn refresh cache0).log,
        x ∈ anchorsOf target today ∨
        x = (anchorsOf target today).headD today - 1 ∨
        x = (anchorsOf target today).headD today - 2 ∨
        x = (anchorsOf target today).headD today - 3) := by
  refine ⟨?_, ?_, ?_⟩
  · intro env refresh initial dmn cache
    have h := cascadeLoopD_log env refresh initial dmn [1, 2, 3] cache
    refine ⟨by simpa using h.1, ?_⟩
    intro x hx
    rcases h.2 x hx with ⟨fd, hfd, hx'⟩
    simp only [List.mem_cons, List.mem_singleton] at hfd
    rcases hfd with h' | h' | h' | h' <;> first
      | (subst h'; simp [hx'])
      | simp at h'
  · intro env refresh initial dmn cn cache
    have h := cascadeLoopC_log env refresh initial dmn cn [1, 2, 3] cache
    refine ⟨by simpa using h.1, ?_⟩
    intro x hx
    rcases h.2 x hx with ⟨fd, hfd, hx'⟩
    simp only [List.mem_cons, List.mem_singleton] at hfd
    rcases hfd with h' | h' | h' | h' <;> first
      | (subst h'; simp [hx'])
      | simp at h'
  · intro env target today dn cn refresh cache0
    have h := fetchLoop_log env ⟨dn, cn, refresh⟩
      ((anchorsOf target today).headD today) (anchorsOf target today) true cache0 []
    have hlen : (anchorsOf target today).length ≤ 3 := by
      cases target <;> simp [anchorsOf]
    simp only [fetchDSR]
    constructor
    · have h1 := h.1
      simp only [List.length_nil, if_true] at h1
      omega
    · intro x hx
      rcases h.2 x hx with h' | h' | h' | h' | h'
      · simp at h'
      · exact Or.inl h'
      · exact Or.inr (Or.inl h')
      · exact Or.inr (Or.inr (Or.inl h'))
      · exact Or.inr (Or.inr (Or.inr h'))

/-- Witness for C5: the all-downloads-fail run fetches exactly the three
anchors; its log length is within the bound and the logged date 8 is an
anchor. -/
theorem claim_C5_witness :
    ((fetchDSR envNone none 10 none none false []).log).length ≤ 12 ∧
    ((8 : Int) ∈ anchorsOf none 10 ∨
      (8 : Int) = (anchorsOf none 10).headD 10 - 1 ∨
      (8 : Int) = (anchorsOf none 10).headD 10 - 2 ∨
      (8 : Int) = (anchorsOf none 10).headD 10 - 3) :=
  ⟨(claim_C5.2.2 envNone none 10 none none false []).1,
   (claim_C5.2.2 envNone none 10 none none false []).2 8 (by decide)⟩

/-- Witness for C8: the ratio clause applied at `soyabean`/`soybean`, whose
normalized forms are unequal non-substrings, so the match is decided by the
0.87-threshold ratio. -/
theorem claim_C8_witness :
    commodityMatches (strLit "soyabean") (strLit "soybean") = true :=
  ((claim_C8 (strLit "soyabean") (strLit "soybean")).2.2.1 (by decide) (by decide)
    (by decide) (by decide) (by decide)).mpr (by decide)
